import Mathlib

/-!
Verification of the distributed synchronization primitives of
`src/mpi4py/util/sync.py`: `Sequential`, `Counter`, `Mutex`, `RMutex` and
`Condition`.  All shared state lives in RMA windows; every cross-rank
interaction in the source is an atomic `Accumulate`, `Fetch_and_op` or
`Compare_and_swap` on an integer slot, so the embedding models each window
as rank-indexed slot functions and each RMA operation as an atomic update.
The sentinel `NULL_RANK` (`MPI.PROC_NULL`) is modelled as `Option.none` for
`Fin`-indexed windows, and as the integer `-1` for the condition-variable
queue, which the source manipulates as plain ints.
-/

set_option maxHeartbeats 1000000
set_option linter.unusedVariables false
set_option linter.unreachableTactic false
set_option linter.unnecessarySeqFocus false
set_option linter.unusedTactic false

namespace MpiSync

/-- Error kinds raised by the primitives.  The source raises `RuntimeError`
with fixed messages; the spec classifies them as `AlreadyFreed`,
`AlreadyHeld` and `NotHeld`.  `winNull` stands for the MPI-level error of
freeing a null window handle. -/
inductive SyncError where
  | alreadyFreed
  | alreadyHeld
  | notHeld
  | winNull
  deriving DecidableEq, Repr

/-- Pointwise update of a rank-indexed window slot function: the effect of an
atomic `Accumulate(REPLACE)` of value `v` at index `x`. -/
def upd {α β : Type} [DecidableEq α] (f : α → β) (x : α) (v : β) : α → β :=
  fun y => if y = x then v else f y

@[simp] theorem upd_same {α β : Type} [DecidableEq α] (f : α → β) (x : α) (v : β) :
    upd f x v x = v := by
  simp [upd]

@[simp] theorem upd_other {α β : Type} [DecidableEq α] (f : α → β) (x : α) (v : β)
    (y : α) (h : y ≠ x) : upd f x v y = f y := by
  simp [upd, h]

/-! ## Counter -/

/-- State of a `Counter`: the window validity flag, the single counter slot
homed at `(root, 0)`, and the configured `start` and `step`. -/
structure CounterS where
  win : Bool
  value : Int
  start : Int
  step : Int
  deriving DecidableEq, Repr

namespace Counter

/-- `Counter.next(incr)`: raise `AlreadyFreed` if the window is null, else
atomically fetch the slot value and add the increment; the configured `step`
is used when `incr` is `None`.  The `Fetch_and_op(SUM)` is a single atomic
step, so concurrent callers are linearized and each sees the pre-increment
value. -/
def next (s : CounterS) (incr : Option Int) : Except SyncError (Int × CounterS) :=
  if s.win = false then .error .alreadyFreed
  else .ok (s.value, { s with value := s.value + incr.getD s.step })

/-- Fresh counter state right after `Counter.__init__`: slot holds `start`. -/
def init (start step : Int) : CounterS :=
  ⟨true, start, start, step⟩

/-- Counter state after `i` linearized `next()` calls with default increment. -/
def stateAfter (start step : Int) : Nat → CounterS
  | 0 => init start step
  | i + 1 =>
      match next (stateAfter start step i) none with
      | .ok (_, s) => s
      | .error _ => stateAfter start step i

/-- The value observed by the `i`-th linearized default `next()` call. -/
def obs (start step : Int) (i : Nat) : Int :=
  match next (stateAfter start step i) none with
  | .ok (v, _) => v
  | .error _ => 0

theorem stateAfter_eq (start step : Int) (i : Nat) :
    stateAfter start step i = ⟨true, start + i * step, start, step⟩ := by
  induction i with
  | zero => simp [stateAfter, init]
  | succ i ih =>
      simp only [stateAfter, ih, next]
      simp [Nat.cast_succ]
      ring

theorem obs_eq (start step : Int) (i : Nat) :
    obs start step i = start + i * step := by
  simp [obs, next, stateAfter_eq]

end Counter

/-- C2: `Counter.next` returns the pre-increment value and adds the configured
`step` when no increment is given; the linearized sequence of `n` default
`next()` calls observes the arithmetic progression `start + i * step`
(`i` from `0`), with no duplicates and no gaps (distinctness requires the
configured step to be nonzero, as a zero step makes the progression
constant). -/
theorem counter_next_progression (start step : Int) (n i j : Nat)
    (hi : i < n) (hj : j < n) :
    (∀ s : CounterS, s.win = true →
      Counter.next s none = .ok (s.value, { s with value := s.value + s.step })) ∧
    Counter.obs start step i = start + i * step ∧
    (step ≠ 0 → Counter.obs start step i = Counter.obs start step j → i = j) := by
  refine ⟨fun s hs => by simp [Counter.next, hs], Counter.obs_eq start step i, ?_⟩
  intro hstep hobs
  rw [Counter.obs_eq, Counter.obs_eq] at hobs
  have h2 : (i : Int) = (j : Int) := by
    have h3 : (i : Int) * step = (j : Int) * step := by omega
    exact mul_right_cancel₀ hstep h3
  exact_mod_cast h2

/-- Witness for C2 at `start = 10`, `step = 3`, observations `0` and `2`. -/
theorem counter_next_progression_witness :
    Counter.obs 10 3 2 = 10 + (2 : Nat) * 3 :=
  (counter_next_progression 10 3 4 2 0 (by decide) (by decide)).2.1

/-! ## Sequential -/

/-- Progress of one rank through its sequential section: it has not yet
called `begin()`, it has returned from `begin()`, or it has returned from
`end()`. -/
inductive SeqStatus where
  | notStarted
  | begun
  | ended
  deriving DecidableEq, Repr

/-- Global state of the `Sequential` protocol over `N` ranks: each rank's
progress, plus for each rank `r` whether the zero-byte message it sends to
rank `r + 1` in `end()` is in flight. -/
structure SeqState (N : Nat) where
  status : Fin N → SeqStatus
  msg : Fin N → Bool

/-- The two operations of `Sequential`. -/
inductive SeqOp where
  | beginOp
  | endOp
  deriving DecidableEq, Repr

/-- Initial state: no rank has begun, no message in flight. -/
def seqInit (N : Nat) : SeqState N :=
  ⟨fun _ => .notStarted, fun _ => false⟩

/-- One atomic step of rank `r`.  `begin()` on rank `r > 0` blocks on a
receive from `r - 1` (enabled only when the message is in flight, which it
consumes); rank `0` returns immediately.  `end()` on rank `r < N - 1` sends
the zero-byte message to `r + 1`; the last rank sends nothing.  A disabled
operation leaves the state unchanged (the caller is blocked). -/
def seqStep {N : Nat} (s : SeqState N) (r : Fin N) : SeqOp → SeqState N
  | .beginOp =>
      if s.status r = .notStarted then
        if (r : Nat) = 0 then { s with status := upd s.status r .begun }
        else
          let p : Fin N := ⟨(r : Nat) - 1, lt_of_le_of_lt (Nat.sub_le _ _) r.isLt⟩
          if s.msg p then
            { s with status := upd s.status r .begun, msg := upd s.msg p false }
          else s
      else s
  | .endOp =>
      if s.status r = .begun then
        if (r : Nat) = N - 1 then { s with status := upd s.status r .ended }
        else { s with status := upd s.status r .ended, msg := upd s.msg r true }
      else s

/-- Run a schedule: an arbitrary interleaving of `begin()`/`end()` attempts. -/
def seqRun (N : Nat) : List (Fin N × SeqOp) → SeqState N
  | [] => seqInit N
  | e :: sched => seqStep (seqRun N sched) e.1 e.2

/-- Inductive invariant of the `Sequential` protocol. -/
def SeqInv {N : Nat} (s : SeqState N) : Prop :=
  (∀ r : Fin N, s.status r ≠ .notStarted → ∀ q : Fin N, q < r → s.status q = .ended) ∧
  (∀ r : Fin N, s.msg r = true → s.status r = .ended) ∧
  (∀ r : Fin N, ∀ h : (r : Nat) + 1 < N, s.status r = .ended →
    s.status ⟨(r : Nat) + 1, h⟩ = .notStarted → s.msg r = true)

theorem seqInv_init (N : Nat) : SeqInv (seqInit N) := by
  refine ⟨fun r hr => absurd rfl hr, fun r hr => by simp [seqInit] at hr, ?_⟩
  intro r h hr
  simp [seqInit] at hr

theorem seqInv_step {N : Nat} (s : SeqState N) (r : Fin N) (op : SeqOp)
    (h : SeqInv s) : SeqInv (seqStep s r op) := by
  obtain ⟨h1, h2, h3⟩ := h
  cases op with
  | beginOp =>
      simp only [seqStep]
      by_cases hst : s.status r = .notStarted
      · simp only [hst, if_true]
        by_cases hz : (r : Nat) = 0
        · simp only [hz, if_true]
          refine ⟨?_, ?_, ?_⟩ <;> dsimp only
          · intro a ha q hq
            have hqr : q ≠ r := by
              intro hqr
              by_cases har : a = r
              · rw [hqr, har] at hq; exact absurd hq (lt_irrefl r)
              · rw [upd_other _ _ _ _ har] at ha
                have hqe := h1 a ha q hq
                rw [hqr] at hqe
                rw [hqe] at hst
                exact absurd hst (by simp)
            rw [upd_other _ _ _ _ hqr]
            by_cases har : a = r
            · exfalso
              have hqv : (q : Nat) < (r : Nat) := har ▸ hq
              omega
            · exact h1 a (by rwa [upd_other _ _ _ _ har] at ha) q hq
          · intro a ha
            have hae := h2 a ha
            have har : a ≠ r := by
              intro har; rw [har, hst] at hae; exact absurd hae (by simp)
            rw [upd_other _ _ _ _ har]; exact hae
          · intro a hlt ha hnext
            by_cases har : a = r
            · rw [har, upd_same] at ha; exact absurd ha (by simp)
            · rw [upd_other _ _ _ _ har] at ha
              apply h3 a hlt ha
              by_cases hsr : (⟨(a : Nat) + 1, hlt⟩ : Fin N) = r
              · rw [hsr, upd_same] at hnext; exact absurd hnext (by simp)
              · rwa [upd_other _ _ _ _ hsr] at hnext
        · have hpval : ((⟨(r : Nat) - 1, lt_of_le_of_lt (Nat.sub_le _ _) r.isLt⟩ :
              Fin N) : Nat) = (r : Nat) - 1 := rfl
          set p : Fin N := ⟨(r : Nat) - 1, lt_of_le_of_lt (Nat.sub_le _ _) r.isLt⟩
          simp only [hz, if_false]
          by_cases hm : s.msg p
          · simp only [hm, if_true]
            have hpend : s.status p = .ended := h2 p hm
            have hbelow : ∀ q : Fin N, q < p → s.status q = .ended :=
              h1 p (by rw [hpend]; simp)
            refine ⟨?_, ?_, ?_⟩ <;> dsimp only
            · intro a ha q hq
              have hq_ne_r : q ≠ r := by
                intro hqr
                by_cases har : a = r
                · rw [hqr, har] at hq; exact absurd hq (lt_irrefl r)
                · rw [upd_other _ _ _ _ har] at ha
                  have hqe := h1 a ha q hq
                  rw [hqr] at hqe
                  rw [hqe] at hst
                  exact absurd hst (by simp)
              rw [upd_other _ _ _ _ hq_ne_r]
              by_cases har : a = r
              · rw [har] at hq
                by_cases hqp : q = p
                · rw [hqp]; exact hpend
                · refine hbelow q ?_
                  have hqp2 : (q : Nat) ≠ (p : Nat) :=
                    fun hc => hqp (Fin.ext hc)
                  have hqv : (q : Nat) < (r : Nat) := hq
                  show (q : Nat) < (p : Nat)
                  rw [hpval] at hqp2 ⊢
                  omega
              · rw [upd_other _ _ _ _ har] at ha
                exact h1 a ha q hq
            · intro a ha
              by_cases hap : a = p
              · rw [hap, upd_same] at ha; exact absurd ha (by simp)
              · rw [upd_other _ _ _ _ hap] at ha
                have hae := h2 a ha
                have har : a ≠ r := by
                  intro har; rw [har, hst] at hae; exact absurd hae (by simp)
                rw [upd_other _ _ _ _ har]; exact hae
            · intro a hlt ha hnext
              by_cases har : a = r
              · rw [har, upd_same] at ha; exact absurd ha (by simp)
              · rw [upd_other _ _ _ _ har] at ha
                by_cases hsr : (⟨(a : Nat) + 1, hlt⟩ : Fin N) = r
                · -- the successor of a is r, which just moved to begun, so
                  -- the notStarted hypothesis fails
                  rw [hsr, upd_same] at hnext
                  exact absurd hnext (by simp)
                · rw [upd_other _ _ _ _ hsr] at hnext
                  have hmsg := h3 a hlt ha hnext
                  have hap : a ≠ p := by
                    intro hap
                    apply hsr
                    apply Fin.ext
                    show (a : Nat) + 1 = (r : Nat)
                    have hav : (a : Nat) = (p : Nat) := congrArg Fin.val hap
                    rw [hpval] at hav
                    omega
                  rwa [upd_other _ _ _ _ hap]
          · simp only [hm, if_false]
            exact ⟨h1, h2, h3⟩
      · simp only [hst, if_false]
        exact ⟨h1, h2, h3⟩
  | endOp =>
      simp only [seqStep]
      by_cases hst : s.status r = .begun
      · have hstat : ∀ a : Fin N, upd s.status r .ended a ≠ .notStarted →
            ∀ q : Fin N, q < a → upd s.status r .ended q = .ended := by
          intro a ha q hq
          by_cases hqr : q = r
          · rw [hqr, upd_same]
          · rw [upd_other _ _ _ _ hqr]
            by_cases har : a = r
            · exact h1 a (by rw [har, hst]; simp) q hq
            · exact h1 a (by rwa [upd_other _ _ _ _ har] at ha) q hq
        by_cases hl : (r : Nat) = N - 1
        · simp only [hst, if_true, hl, if_true]
          refine ⟨hstat, ?_, ?_⟩ <;> dsimp only
          · intro a ha
            have hae := h2 a ha
            by_cases har : a = r
            · rw [har, upd_same]
            · rw [upd_other _ _ _ _ har]; exact hae
          · intro a hlt ha hnext
            by_cases har : a = r
            · exfalso
              have hav : (a : Nat) = N - 1 := har ▸ hl
              omega
            · rw [upd_other _ _ _ _ har] at ha
              apply h3 a hlt ha
              by_cases hsr : (⟨(a : Nat) + 1, hlt⟩ : Fin N) = r
              · rw [hsr, upd_same] at hnext; exact absurd hnext (by simp)
              · rwa [upd_other _ _ _ _ hsr] at hnext
        · simp only [hst, if_true, hl, if_false]
          refine ⟨hstat, ?_, ?_⟩ <;> dsimp only
          · intro a ha
            by_cases har : a = r
            · rw [har, upd_same]
            · rw [upd_other _ _ _ _ har] at ha ⊢
              exact h2 a ha
          · intro a hlt ha hnext
            by_cases har : a = r
            · rw [har, upd_same]
            · rw [upd_other _ _ _ _ har] at ha ⊢
              by_cases hsr : (⟨(a : Nat) + 1, hlt⟩ : Fin N) = r
              · rw [hsr, upd_same] at hnext
                exact absurd hnext (by simp)
              · rw [upd_other _ _ _ _ hsr] at hnext
                exact h3 a hlt ha hnext
      · simp only [hst, if_false]
        exact ⟨h1, h2, h3⟩

theorem seqInv_run (N : Nat) (sched : List (Fin N × SeqOp)) :
    SeqInv (seqRun N sched) := by
  induction sched with
  | nil => exact seqInv_init N
  | cons e sched ih => exact seqInv_step _ e.1 e.2 ih

/-- C4 (amended): in every reachable state of the `Sequential` protocol,
once `begin()` has returned on rank `r`, every rank `< r` has executed
`begin()` and has also executed `end()` (the token is passed by the
predecessor's `end()`, not its `begin()`); while rank `r` is inside its
section no rank `≥ r` has executed `end()`; and once `end()` has returned
on rank `r`, the message enabling rank `r + 1` to proceed past its
`begin()` has been sent (or already consumed). -/
theorem sequential_order (N : Nat) (sched : List (Fin N × SeqOp)) (r : Fin N) :
    ((seqRun N sched).status r ≠ .notStarted →
      ∀ q : Fin N, q < r → (seqRun N sched).status q = .ended) ∧
    ((seqRun N sched).status r = .begun →
      ∀ q : Fin N, r ≤ q → (seqRun N sched).status q ≠ .ended) ∧
    ((seqRun N sched).status r = .ended → ∀ h : (r : Nat) + 1 < N,
      (seqRun N sched).msg r = true ∨
        (seqRun N sched).status ⟨(r : Nat) + 1, h⟩ ≠ .notStarted) := by
  obtain ⟨h1, h2, h3⟩ := seqInv_run N sched
  refine ⟨fun hr q hq => h1 r hr q hq, ?_, ?_⟩
  · intro hb q hrq hqe
    by_cases hqr : q = r
    · rw [hqr, hb] at hqe; exact absurd hqe (by simp)
    · have hrq2 : r < q := lt_of_le_of_ne hrq (fun hc => hqr hc.symm)
      have hre := h1 q (by rw [hqe]; simp) r hrq2
      rw [hre] at hb
      exact absurd hb (by simp)
  · intro he h
    by_cases hns : (seqRun N sched).status ⟨(r : Nat) + 1, h⟩ = .notStarted
    · exact Or.inl (h3 r h he hns)
    · exact Or.inr hns

/-- C4 counterexample to the claim as stated: with two ranks, after the
schedule (rank 0 `begin`, rank 0 `end`, rank 1 `begin`) — the only way
rank 1 can return from `begin()` — rank 1 has returned from `begin()`
while rank 0, a rank `< 1`, has already executed `end()`, contradicting
the claim that none of the ranks `< r` has executed `end()`. -/
theorem sequential_claim_counterexample :
    (seqRun 2 [(1, .beginOp), (0, .endOp), (0, .beginOp)]).status 1 = .begun ∧
    (seqRun 2 [(1, .beginOp), (0, .endOp), (0, .beginOp)]).status 0 = .ended := by
  decide

/-- Witness for C4 (amended) at the concrete two-rank schedule. -/
theorem sequential_order_witness :
    (seqRun 2 [(1, .beginOp), (0, .endOp), (0, .beginOp)]).status 0 = .ended :=
  (sequential_order 2 [(1, .beginOp), (0, .endOp), (0, .beginOp)] 1).1
    (by decide) 0 (by decide)

/-! ## Mutex: single-caller functional semantics

The acquire and release protocols as executed by one rank while no other
rank issues RMA operations (the setting of claims C5 and C6).  Each RMA
atomic takes effect in program order; `Flush`, `Sync` and the epoch
brackets order completion but change no window state.  A spin loop whose
exit condition is not already true cannot terminate when no other rank
acts, which is modelled by returning `none` (the call blocks). -/

/-- The mutex window across `N` ranks: the validity flag, per-rank `LOCK`
and `NEXT` slots, and the `TAIL` slot homed on rank 0.  `NULL_RANK` is
`none`. -/
structure MutexG (N : Nat) where
  win : Bool
  lock : Fin N → Bool
  next : Fin N → Option (Fin N)
  tail : Option (Fin N)

theorem MutexG.ext2 {N : Nat} {g h : MutexG N} (hw : g.win = h.win)
    (hl : g.lock = h.lock) (hn : g.next = h.next) (ht : g.tail = h.tail) :
    g = h := by
  cases g; cases h
  simp only at hw hl hn ht
  rw [hw, hl, hn, ht]

@[simp] theorem upd_upd {α β : Type} [DecidableEq α] (f : α → β) (x : α) (v w : β) :
    upd (upd f x v) x w = upd f x w := by
  funext y
  by_cases h : y = x <;> simp [upd, h]

theorem upd_eq_self {α β : Type} [DecidableEq α] (f : α → β) (x : α) (v : β)
    (h : f x = v) : upd f x v = f := by
  funext y
  by_cases hy : y = x
  · rw [hy, upd_same, h]
  · rw [upd_other _ _ _ _ hy]

/-- Window contents right after `Mutex.__init__`: all `LOCK` slots 0, all
`NEXT` slots and the `TAIL` slot `NULL_RANK`. -/
def mutexInit (N : Nat) : MutexG N :=
  ⟨true, fun _ => false, fun _ => none, none⟩

namespace Mutex

/-- `Mutex.locked()`: raise `AlreadyFreed` if the window is null, else read
the local `LOCK` slot. -/
def locked {N : Nat} (g : MutexG N) (r : Fin N) : Except SyncError Bool :=
  if g.win = false then .error .alreadyFreed else .ok (g.lock r)

/-- `Mutex.acquire(blocking)` as executed by rank `r`: the freed and
already-held guards, then the atomic protocol steps in program order:
replace own `NEXT` with `NULL_RANK`; swap self onto `TAIL` (blocking) or
compare-and-swap `TAIL` from `NULL_RANK` to self (non-blocking), fetching
the prior tail into `prev`; if blocking and the lock was not free, link the
predecessor's `NEXT` to self and spin on the own `LOCK` slot; finally
replace the own `LOCK` slot with the outcome. -/
def acquire {N : Nat} (g : MutexG N) (r : Fin N) (blocking : Bool) :
    Except SyncError (Option (Bool × MutexG N)) :=
  if g.win = false then .error .alreadyFreed
  else if g.lock r then .error .alreadyHeld
  else
    let g1 : MutexG N := { g with next := upd g.next r none }
    let prev : Option (Fin N) := g1.tail
    let g2 : MutexG N :=
      if blocking then { g1 with tail := some r }
      else if g1.tail = none then { g1 with tail := some r } else g1
    let lockedv : Bool := decide (prev = none)
    match blocking, prev with
    | true, some p =>
        let g3 : MutexG N := { g2 with next := upd g2.next p (some r) }
        if g3.lock r then
          .ok (some (true, { g3 with lock := upd g3.lock r true }))
        else .ok none
    | _, _ =>
        .ok (some (lockedv, { g2 with lock := upd g2.lock r lockedv }))

/-- `Mutex.release()` as executed by rank `r`: the freed and not-held
guards, then the tail compare-and-swap (clearing `TAIL` only if still the
tail), then either the handoff (spin on own `NEXT`, then set the
successor's `LOCK`) when the fetched tail differs from self, and finally
the own-`LOCK` clear. -/
def release {N : Nat} (g : MutexG N) (r : Fin N) :
    Except SyncError (Option (MutexG N)) :=
  if g.win = false then .error .alreadyFreed
  else if g.lock r = false then .error .notHeld
  else
    let prev : Option (Fin N) := g.tail
    let g1 : MutexG N := if g.tail = some r then { g with tail := none } else g
    if prev ≠ some r then
      match g1.next r with
      | none => .ok none
      | some s =>
          let g2 : MutexG N := { g1 with lock := upd g1.lock s true }
          .ok (some { g2 with lock := upd g2.lock r false })
    else
      .ok (some { g1 with lock := upd g1.lock r false })

end Mutex

/-- The window state between an uncontended `acquire()` and the matching
`release()` by rank `r`: only the own `LOCK` slot and `TAIL` differ from
the fresh state. -/
def mutexMid (N : Nat) (r : Fin N) : MutexG N :=
  ⟨true, upd (fun _ => false) r true, fun _ => none, some r⟩

/-- C6: a single rank executing `acquire()` then `release()` with no other
rank contending returns the window to exactly the initial state: `TAIL`
back to `NULL_RANK` and every rank's `LOCK` slot 0 (and all `NEXT` slots
`NULL_RANK`). -/
theorem mutex_acquire_release_roundtrip (N : Nat) (r : Fin N) :
    Mutex.acquire (mutexInit N) r true = .ok (some (true, mutexMid N r)) ∧
    Mutex.release (mutexMid N r) r = .ok (some (mutexInit N)) := by
  constructor
  · simp [Mutex.acquire, mutexInit, mutexMid, upd_eq_self]
  · simp [Mutex.release, mutexInit, mutexMid, upd_upd, upd_same, upd_eq_self]

/-- C5: a non-blocking `acquire` by a non-holder while `TAIL` is not
`NULL_RANK` completes without spinning, returns `False`, leaves `TAIL`
unchanged, writes no other rank's `NEXT` slot (only the caller's own `NEXT`
is replaced by `NULL_RANK`), and leaves every `LOCK` slot unchanged. -/
theorem mutex_acquire_nonblocking_contended (N : Nat) (g : MutexG N) (r : Fin N)
    (hw : g.win = true) (hl : g.lock r = false) (ht : g.tail ≠ none) :
    Mutex.acquire g r false = .ok (some (false, { g with next := upd g.next r none })) ∧
    ({ g with next := upd g.next r none } : MutexG N).tail = g.tail ∧
    (∀ q : Fin N, q ≠ r → upd g.next r none q = g.next q) ∧
    ({ g with next := upd g.next r none } : MutexG N).lock = g.lock := by
  refine ⟨?_, rfl, fun q hq => upd_other _ _ _ _ hq, rfl⟩
  cases hprev : g.tail with
  | none => exact absurd hprev ht
  | some t =>
      simp [Mutex.acquire, hw, hl, hprev, upd_eq_self]

/-- Witness for C5: two ranks, rank 0 holds the tail, rank 1 attempts a
non-blocking acquire. -/
theorem mutex_acquire_nonblocking_contended_witness :
    Mutex.acquire (⟨true, fun _ => false, fun _ => none, some 0⟩ : MutexG 2) 1 false =
      .ok (some (false, { (⟨true, fun _ => false, fun _ => none, some 0⟩ : MutexG 2) with
        next := upd (fun _ => none) 1 none })) :=
  (mutex_acquire_nonblocking_contended 2 ⟨true, fun _ => false, fun _ => none, some 0⟩ 1
    rfl rfl (by decide)).1

/-! ## RMutex: local recursion state

The `RMutex` wraps a `Mutex` and a local (non-shared) recursion count; the
state below is the local view of one rank: the underlying window validity,
whether the underlying mutex is held by this rank, and `_count` (a Python
int, so modelled as `Int`).  Operations return the mutated state together
with the outcome, since Python exceptions propagate after any mutation
already performed. -/

/-- Local `RMutex` state of one rank. -/
structure RMutexS where
  blockWin : Bool
  blockHeld : Bool
  count : Int
  deriving DecidableEq, Repr

namespace RMutex

/-- `RMutex.locked()`: delegates to `Mutex.locked()` on the underlying
mutex, which raises `AlreadyFreed` when its window is null. -/
def locked (s : RMutexS) : Except SyncError Bool :=
  if s.blockWin = false then .error .alreadyFreed else .ok s.blockHeld

/-- `RMutex.count()`: returns the local count, with no freed check. -/
def count (s : RMutexS) : Int :=
  s.count

/-- `RMutex.acquire(blocking)`: if the underlying mutex is already held by
this rank, increment the count; else delegate to `Mutex.acquire` (its
outcome supplied by the oracle `ok`, always `true` for a blocking call
that returns) and set the count to 1 on success. -/
def acquire (s : RMutexS) (blocking ok : Bool) :
    RMutexS × Except SyncError Bool :=
  match locked s with
  | .error e => (s, .error e)
  | .ok true => ({ s with count := s.count + 1 }, .ok true)
  | .ok false =>
      if ok then ({ s with blockHeld := true, count := 1 }, .ok true)
      else (s, .ok false)

/-- `RMutex.release()`: raise `NotHeld` when the underlying mutex is not
held by this rank; else decrement the count and release the underlying
mutex when it reaches zero. -/
def release (s : RMutexS) : RMutexS × Except SyncError Unit :=
  match locked s with
  | .error e => (s, .error e)
  | .ok false => (s, .error .notHeld)
  | .ok true =>
      let c := s.count - 1
      if c = 0 then ({ s with count := c, blockHeld := false }, .ok ())
      else ({ s with count := c }, .ok ())

/-- `RMutex.free()`: `Mutex.free` releases the underlying mutex if held by
this rank and frees the window (freeing an already-null window handle is
an MPI-level error, in which case the count is not reset); then the count
is reset to 0. -/
def free (s : RMutexS) : RMutexS × Except SyncError Unit :=
  if s.blockWin = false then (s, .error .winNull)
  else (⟨false, false, 0⟩, .ok ())

end RMutex

/-- `Condition._release_save` on a recursive lock: capture `_count`, zero
it, then release the underlying (non-recursive) mutex; the saved count is
returned. -/
def releaseSaveRec (s : RMutexS) : RMutexS × Except SyncError Int :=
  let state := s.count
  let s1 : RMutexS := { s with count := 0 }
  if s1.blockWin = false then (s1, .error .alreadyFreed)
  else if s1.blockHeld = false then (s1, .error .notHeld)
  else ({ s1 with blockHeld := false }, .ok state)

/-- `Condition._acquire_restore(state)` on a recursive lock: blocking
acquire of the underlying mutex (it raises `AlreadyFreed` on a null window
and `AlreadyHeld` if this rank already holds it; otherwise it blocks until
it holds), then restore `_count` from the saved state. -/
def acquireRestoreRec (s : RMutexS) (state : Int) : RMutexS × Except SyncError Unit :=
  if s.blockWin = false then (s, .error .alreadyFreed)
  else if s.blockHeld then (s, .error .alreadyHeld)
  else ({ s with blockHeld := true, count := state }, .ok ())

/-- The operations of claim C7: the `RMutex` operations plus the
release-save/acquire-restore steps a `Condition.wait()` performs on its
recursive lock. -/
inductive RStep where
  | acq (blocking ok : Bool)
  | rel
  | free
  | relSave
  | acqRestore
  deriving DecidableEq, Repr

/-- Runner state: the local `RMutex` state plus the count saved by a
pending `_release_save`, consumed by the matching `_acquire_restore`. -/
structure RRun where
  s : RMutexS
  saved : Option Int

/-- Apply one step; exceptions leave the already-performed mutations in
place, as in the source. -/
def rstep (st : RRun) : RStep → RRun
  | .acq blocking ok => { st with s := (RMutex.acquire st.s blocking ok).1 }
  | .rel => { st with s := (RMutex.release st.s).1 }
  | .free => { st with s := (RMutex.free st.s).1 }
  | .relSave =>
      let r := releaseSaveRec st.s
      match r.2 with
      | .ok v => ⟨r.1, some v⟩
      | .error _ => { st with s := r.1 }
  | .acqRestore =>
      match st.saved with
      | some v => ⟨(acquireRestoreRec st.s v).1, none⟩
      | none => st

/-- Run a sequence of steps from the freshly initialized `RMutex`
(`_count = 0`, underlying mutex not held). -/
def rrun : List RStep → RRun
  | [] => ⟨⟨true, false, 0⟩, none⟩
  | e :: l => rstep (rrun l) e

/-- Inductive invariant for C7. -/
def RInv (st : RRun) : Prop :=
  0 ≤ st.s.count ∧ (st.s.blockHeld = true ↔ 0 < st.s.count) ∧
  (st.s.blockWin = false → st.s.blockHeld = false) ∧
  (∀ v, st.saved = some v → 0 < v)

theorem rInv_step (st : RRun) (e : RStep) (h : RInv st) : RInv (rstep st e) := by
  obtain ⟨⟨w, hd, c⟩, sv⟩ := st
  obtain ⟨h1, h2, h3, h4⟩ := h
  simp only at h1 h2 h3 h4
  cases e with
  | acq blocking ok =>
      cases w with
      | false => exact ⟨h1, h2, h3, h4⟩
      | true =>
          cases hd with
          | true =>
              have hc : 0 < c := h2.mp rfl
              exact ⟨by simp [rstep, RMutex.acquire, RMutex.locked] <;> omega,
                by simp [rstep, RMutex.acquire, RMutex.locked] <;> omega,
                by simp [rstep, RMutex.acquire, RMutex.locked], h4⟩
          | false =>
              cases ok with
              | true =>
                  exact ⟨by simp [rstep, RMutex.acquire, RMutex.locked],
                    by simp [rstep, RMutex.acquire, RMutex.locked],
                    by simp [rstep, RMutex.acquire, RMutex.locked], h4⟩
              | false => exact ⟨h1, h2, h3, h4⟩
  | rel =>
      cases w with
      | false => exact ⟨h1, h2, h3, h4⟩
      | true =>
          cases hd with
          | false => exact ⟨h1, h2, h3, h4⟩
          | true =>
              have hc : 0 < c := h2.mp rfl
              by_cases hz : c - 1 = 0
              · exact ⟨by simp [rstep, RMutex.release, RMutex.locked, hz] <;> omega,
                  by simp [rstep, RMutex.release, RMutex.locked, hz] <;> omega,
                  by simp [rstep, RMutex.release, RMutex.locked, hz], h4⟩
              · exact ⟨by simp [rstep, RMutex.release, RMutex.locked, hz] <;> omega,
                  by simp [rstep, RMutex.release, RMutex.locked, hz] <;> omega,
                  by simp [rstep, RMutex.release, RMutex.locked, hz], h4⟩
  | free =>
      cases w with
      | false => exact ⟨h1, h2, h3, h4⟩
      | true =>
          exact ⟨by simp [rstep, RMutex.free], by simp [rstep, RMutex.free],
            by simp [rstep, RMutex.free], h4⟩
  | relSave =>
      cases w with
      | false =>
          have hh : hd = false := h3 rfl
          subst hh
          exact ⟨by simp [rstep, releaseSaveRec],
            by simp [rstep, releaseSaveRec] <;> omega,
            by simp [rstep, releaseSaveRec], h4⟩
      | true =>
          cases hd with
          | false =>
              have hc : ¬ 0 < c := fun hcc => by
                have := h2.mpr hcc
                exact absurd this (by simp)
              exact ⟨by simp [rstep, releaseSaveRec],
                by simp [rstep, releaseSaveRec] <;> omega,
                by simp [rstep, releaseSaveRec], h4⟩
          | true =>
              have hc : 0 < c := h2.mp rfl
              refine ⟨by simp [rstep, releaseSaveRec],
                by simp [rstep, releaseSaveRec] <;> omega,
                by simp [rstep, releaseSaveRec], ?_⟩
              intro v hv
              simp [rstep, releaseSaveRec] at hv
              omega
  | acqRestore =>
      cases sv with
      | none => exact ⟨h1, h2, h3, h4⟩
      | some v =>
          have hv : 0 < v := h4 v rfl
          cases w with
          | false =>
              exact ⟨h1, h2, h3, fun v2 hv2 => Option.noConfusion hv2⟩
          | true =>
              cases hd with
              | true =>
                  have hc : 0 < c := h2.mp rfl
                  exact ⟨by simp [rstep, acquireRestoreRec] <;> omega,
                    by simp [rstep, acquireRestoreRec] <;> omega,
                    by simp [rstep, acquireRestoreRec],
                    by simp [rstep, acquireRestoreRec]⟩
              | false =>
                  exact ⟨by simp [rstep, acquireRestoreRec] <;> omega,
                    by simp [rstep, acquireRestoreRec] <;> omega,
                    by simp [rstep, acquireRestoreRec],
                    by simp [rstep, acquireRestoreRec]⟩

theorem rInv_run (steps : List RStep) : RInv (rrun steps) := by
  induction steps with
  | nil =>
      refine ⟨by simp [rrun], by simp [rrun], by simp [rrun], ?_⟩
      intro v hv
      simp [rrun] at hv
  | cons e l ih => exact rInv_step _ e ih

/-- C7: after every sequence of `RMutex` operations (`acquire`, `release`,
`free`) and `Condition` release-save/acquire-restore steps on it,
`count() > 0` exactly when the underlying mutex is held by this rank, and
`count()` is never negative. -/
theorem rmutex_count_invariant (steps : List RStep) :
    0 ≤ RMutex.count (rrun steps).s ∧
    ((rrun steps).s.blockHeld = true ↔ 0 < RMutex.count (rrun steps).s) := by
  obtain ⟨h1, h2, h3, h4⟩ := rInv_run steps
  exact ⟨h1, h2⟩

/-! ## Condition: the waiter queue on the condition window

The waiter queue lives on the condition window, distinct from any lock
queue.  The source manipulates ranks as plain C ints, with `MPI.PROC_NULL`
as the sentinel; ranks are modelled as `Int` with the sentinel `-1`
(distinct from every valid rank `0 ≤ r < group_size`).  Queue operations
(`_enqueue` from `wait()`, `_dequeue` from `notify()`) are always executed
while holding the associated lock, so their semantics is sequential. -/

/-- `NULL_RANK` (`MPI.PROC_NULL`) for the integer-indexed condition
window. -/
def nullRank : Int := -1

/-- The condition window: group size, per-rank `FLAG` and `NEXT` slots, and
the `TAIL` slot homed on rank 0. -/
structure QState where
  gsize : Nat
  flag : Int → Bool
  next : Int → Int
  tail : Int

namespace Condition

/-- `Condition._enqueue(process)`: swap self onto `TAIL` fetching the prior
tail into `prev`; if there was a predecessor, swap self into its `NEXT`
slot fetching the prior value; finally store the fetched value (initially
self, realizing the self-link trick) into the own `NEXT` slot. -/
def enqueue (q : QState) (process : Int) : QState :=
  let prev := q.tail
  let q1 : QState := { q with tail := process }
  if prev ≠ nullRank then
    let nextv := q1.next prev
    let q2 : QState := { q1 with next := upd q1.next prev process }
    { q2 with next := upd q2.next process nextv }
  else
    { q1 with next := upd q1.next process process }

/-- The walk loop of `Condition._dequeue`: `first` is the first dequeued
rank (`processes[0]`), `cur` the fetched successor about to be dequeued,
`fuel` the remaining capacity (`maxnumprocs - len(processes)`).  Each
round appends `cur`, fetches its successor, and sets the `empty` flag when
the successor equals the first dequeued rank (the cycle closed).  Returns
the dequeued ranks, the last fetched successor, and the `empty` flag. -/
def deqLoop (f : Int → Int) (first : Int) : Int → Nat → List Int × Int × Bool
  | cur, 0 => ([], cur, false)
  | cur, fuel + 1 =>
      let nxt := f cur
      if first = nxt then ([cur], nxt, true)
      else
        let r := deqLoop f first nxt fuel
        (cur :: r.1, r.2.1, r.2.2)

/-- `Condition._dequeue(maxnumprocs)`: clamp `maxnumprocs` to
`[0, group_size]`; read `TAIL`; if null return the empty list; else walk
the circular `NEXT` chain starting from the head (the `NEXT` of the tail)
until the capacity is reached or the walk cycles back to the first
dequeued rank; finally either relink the tail's `NEXT` to the new head
(queue not drained) or clear `TAIL` (drained). -/
def dequeue (q : QState) (maxnumprocs : Int) : List Int × QState :=
  let m : Int := max 0 (min maxnumprocs (q.gsize : Int))
  let prev := q.tail
  if prev = nullRank then ([], q)
  else
    let next0 := q.next prev
    let r := deqLoop q.next next0 next0 m.toNat
    if r.2.2 = false then (r.1, { q with next := upd q.next prev r.2.1 })
    else (r.1, { q with tail := nullRank })

/-- `Condition._wakeup(processes)`: replace each listed rank's `FLAG`
slot with 1. -/
def wakeup (q : QState) : List Int → QState
  | [] => q
  | r :: rs => wakeup { q with flag := upd q.flag r true } rs

end Condition

/-- The circular chain encoding of a nonempty waiter queue: consecutive
waiters are linked through the `NEXT` slots, and the last waiter's `NEXT`
points back to `w` (the head, closing the cycle). -/
def linksTo (f : Int → Int) : List Int → Int → Bool
  | [], _ => true
  | [a], w => f a == w
  | a :: b :: t, w => f a == b && linksTo f (b :: t) w

/-- Well-formed waiter queue holding exactly the waiters `L` in enqueue
order: distinct valid ranks; `TAIL` is `NULL_RANK` when no waiter waits,
else the last enqueued waiter; and the `NEXT` slots of the waiters form
the circular chain from the head back to itself. -/
def wfQ (L : List Int) (q : QState) : Prop :=
  L.Nodup ∧ (∀ x ∈ L, 0 ≤ x ∧ x < (q.gsize : Int)) ∧
  (match L with
   | [] => q.tail = nullRank
   | a :: t => q.tail = (a :: t).getLast (by simp) ∧ linksTo q.next (a :: t) a = true)

theorem linksTo_upd (f : Int → Int) (x v w : Int) :
    ∀ L : List Int, x ∉ L → linksTo (upd f x v) L w = linksTo f L w
  | [], _ => rfl
  | [a], h => by
      have hax : a ≠ x := by simp at h; omega
      simp [linksTo, upd_other f x v a hax]
  | a :: b :: t, h => by
      have hax : a ≠ x := by simp at h; omega
      have hbt : x ∉ b :: t := by simp at h ⊢; tauto
      simp only [linksTo, upd_other f x v a hax,
        linksTo_upd f x v w (b :: t) hbt]

theorem linksTo_last (f : Int → Int) (w : Int) :
    ∀ (L : List Int) (h : L ≠ []), linksTo f L w = true → f (L.getLast h) = w
  | [], h => absurd rfl h
  | [a], _ => by simp [linksTo]
  | a :: b :: t, _ => by
      intro hl
      simp only [linksTo, Bool.and_eq_true, beq_iff_eq] at hl
      have := linksTo_last f w (b :: t) (by simp) hl.2
      simpa [List.getLast] using this

theorem linksTo_relink (f : Int → Int) (p : Int) :
    ∀ (L : List Int) (h : L ≠ []) (w : Int), L.Nodup → linksTo f L w = true →
      linksTo (upd f (L.getLast h) p) L p = true
  | [], h, _ => absurd rfl h
  | [a], _, w => by
      intro _ _
      simp [linksTo, List.getLast]
  | a :: b :: t, _, w => by
      intro hnd hl
      simp only [linksTo, Bool.and_eq_true, beq_iff_eq] at hl
      have hg : (a :: b :: t).getLast (by simp) = (b :: t).getLast (by simp) := by
        simp [List.getLast]
      have hmem : (b :: t).getLast (by simp) ∈ b :: t := List.getLast_mem _
      have hna : a ∉ b :: t := (List.nodup_cons.mp hnd).1
      have hag : a ≠ (b :: t).getLast (by simp) := by
        intro hc; exact hna (hc ▸ hmem)
      simp only [linksTo, Bool.and_eq_true, beq_iff_eq]
      rw [hg]
      constructor
      · rw [upd_other f _ p a hag]; exact hl.1
      · exact linksTo_relink f p (b :: t) (by simp) w (List.nodup_cons.mp hnd).2
          (by simpa [linksTo] using hl.2)

theorem linksTo_extend (f : Int → Int) (p w : Int) :
    ∀ L : List Int, L ≠ [] → linksTo f L p = true → f p = w →
      linksTo f (L ++ [p]) w = true
  | [], h => absurd rfl h
  | [a], _ => by
      intro hl hp
      simp only [linksTo, beq_iff_eq] at hl
      simp [linksTo, hl, hp]
  | a :: b :: t, _ => by
      intro hl hp
      simp only [linksTo, Bool.and_eq_true, beq_iff_eq] at hl
      have ih := linksTo_extend f p w (b :: t) (by simp)
        (by simpa [linksTo] using hl.2) hp
      simp only [List.cons_append, linksTo, Bool.and_eq_true, beq_iff_eq]
      exact ⟨hl.1, by simpa using ih⟩

theorem deqLoop_drain (f : Int → Int) (first : Int) :
    ∀ (M : List Int) (c : Int) (fuel : Nat), linksTo f (c :: M) first = true →
      first ∉ M → M.length < fuel →
      Condition.deqLoop f first c fuel = (c :: M, first, true)
  | M, c, 0 => by
      intro _ _ h
      omega
  | [], c, fuel + 1 => by
      intro hl _ _
      simp only [linksTo, beq_iff_eq] at hl
      simp [Condition.deqLoop, hl]
  | b :: M, c, fuel + 1 => by
      intro hl hf hlen
      simp only [linksTo, Bool.and_eq_true, beq_iff_eq] at hl
      have hfb : first ≠ b := by simp at hf; tauto
      have ih := deqLoop_drain f first M b fuel hl.2
        (by simp at hf; tauto) (by simp at hlen ⊢; omega)
      simp [Condition.deqLoop, hl.1, hfb, ih]

theorem deqLoop_partial (f : Int → Int) (first : Int) :
    ∀ (fuel : Nat) (M : List Int) (c : Int), linksTo f (c :: M) first = true →
      first ∉ M → fuel ≤ M.length →
      Condition.deqLoop f first c fuel =
        ((c :: M).take fuel, (c :: M).getD fuel 0, false)
  | 0, M, c => by
      intro _ _ _
      simp [Condition.deqLoop]
  | fuel + 1, [], c => by
      intro _ _ h
      simp at h
  | fuel + 1, b :: M, c => by
      intro hl hf hlen
      simp only [linksTo, Bool.and_eq_true, beq_iff_eq] at hl
      have hfb : first ≠ b := by simp at hf; tauto
      have ih := deqLoop_partial f first fuel M b hl.2
        (by simp at hf; tauto) (by simp at hlen; omega)
      simp [Condition.deqLoop, hl.1, hfb, ih]

theorem nodup_length_le (g : Nat) (L : List Int) (hnd : L.Nodup)
    (hv : ∀ x ∈ L, 0 ≤ x ∧ x < (g : Int)) : L.length ≤ g := by
  classical
  have hsub : L.toFinset ⊆ Finset.Ioo (-1 : Int) g := by
    intro x hx
    rw [List.mem_toFinset] at hx
    have := hv x hx
    rw [Finset.mem_Ioo]
    omega
  have hcard := Finset.card_le_card hsub
  rw [List.toFinset_card_of_nodup hnd] at hcard
  rwa [Int.card_Ioo, show ((g : Int) - (-1) - 1).toNat = g by omega] at hcard

/-- Sequential `_enqueue` (always executed under the associated lock)
preserves the queue encoding, appending the new waiter at the tail. -/
theorem wfQ_enqueue (L : List Int) (q : QState) (p : Int) (hwf : wfQ L q)
    (hp0 : 0 ≤ p) (hpg : p < (q.gsize : Int)) (hpL : p ∉ L) :
    wfQ (L ++ [p]) (Condition.enqueue q p) := by
  obtain ⟨hnd, hv, hq⟩ := hwf
  cases L with
  | nil =>
      simp only [wfQ] at hq
      refine ⟨by simp, ?_, ?_⟩
      · intro x hx
        simp only [List.nil_append, List.mem_singleton] at hx
        subst hx
        exact ⟨hp0, by simpa [Condition.enqueue, hq] using hpg⟩
      · simp only [List.nil_append]
        constructor
        · simp [Condition.enqueue, hq, nullRank]
        · simp [Condition.enqueue, hq, nullRank, linksTo]
  | cons a t =>
      obtain ⟨hq1, hq2⟩ := hq
      have hlastmem : (a :: t).getLast (by simp) ∈ a :: t := List.getLast_mem _
      have hlastv := hv _ hlastmem
      have hlneq : ¬ (q.tail = nullRank) := by
        rw [hq1]
        intro hc
        rw [hc] at hlastv
        simp only [nullRank] at hlastv
        exact absurd hlastv.1 (by norm_num)
      have hnext0 : q.next q.tail = a := by
        rw [hq1]
        exact linksTo_last q.next a _ (by simp) hq2
      have henq : Condition.enqueue q p =
          { q with next := upd (upd q.next q.tail p) p (q.next q.tail), tail := p } := by
        simp [Condition.enqueue, hlneq]
      have hchain : linksTo (upd (upd q.next q.tail p) p (q.next q.tail))
          ((a :: t) ++ [p]) a = true := by
        have h1 : linksTo (upd q.next ((a :: t).getLast (by simp)) p) (a :: t) p = true :=
          linksTo_relink q.next p (a :: t) (by simp) a hnd hq2
        have h2 : linksTo (upd (upd q.next q.tail p) p (q.next q.tail)) (a :: t) p = true := by
          rw [linksTo_upd _ p _ p (a :: t) hpL, hq1]
          exact h1
        refine linksTo_extend _ p a (a :: t) (by simp) h2 ?_
        rw [upd_same, hnext0]
      refine ⟨?_, ?_, ?_⟩
      · rw [List.nodup_append]
        exact ⟨hnd, by simp, by
          intro x hx hxp
          simp only [List.mem_singleton] at hxp
          subst hxp
          exact hpL hx⟩
      · intro x hx
        rw [List.mem_append] at hx
        rw [henq]
        rcases hx with hx | hx
        · exact hv x hx
        · simp only [List.mem_singleton] at hx
          subst hx
          exact ⟨hp0, hpg⟩
      · rw [henq]
        simp only [List.cons_append]
        constructor
        · exact (List.getLast_append_singleton (a := p) (a :: t)).symm
        · simpa using hchain

/-- C9: starting from any well-formed waiter queue holding `k ≥ 0` ranks
(built by `_enqueue`, with the self-link/circular `NEXT` encoding whose
exhaustion test compares the just-read successor to the first dequeued
rank), `_dequeue(maxnumprocs)` with `maxnumprocs ≥ group_size` returns all
`k` ranks in enqueue order and resets `TAIL` to `NULL_RANK`; and
`_enqueue` extends a well-formed queue by appending the new waiter, so the
encoding lists the waiters in enqueue order. -/
theorem condition_dequeue_drains (L : List Int) (q : QState) (m : Int)
    (hwf : wfQ L q) (hm : (q.gsize : Int) ≤ m) :
    Condition.dequeue q m = (L, { q with tail := nullRank }) ∧
    (∀ (q2 : QState) (p : Int), wfQ L q2 → 0 ≤ p → p < (q2.gsize : Int) →
      p ∉ L → wfQ (L ++ [p]) (Condition.enqueue q2 p)) := by
  refine ⟨?_, fun q2 p h h0 h1 h2 => wfQ_enqueue L q2 p h h0 h1 h2⟩
  obtain ⟨hnd, hv, hq⟩ := hwf
  cases L with
  | nil =>
      simp only [wfQ] at hq
      obtain ⟨g, fl, nx, tl⟩ := q
      simp only at hq
      subst hq
      simp [Condition.dequeue]
  | cons a t =>
      obtain ⟨hq1, hq2⟩ := hq
      have hlastmem : (a :: t).getLast (by simp) ∈ a :: t := List.getLast_mem _
      have hlastv := hv _ hlastmem
      have hlneq : ¬ (q.tail = nullRank) := by
        rw [hq1]
        intro hc
        rw [hc] at hlastv
        simp only [nullRank] at hlastv
        exact absurd hlastv.1 (by norm_num)
      have hfuel : (max 0 (min m (q.gsize : Int))).toNat = q.gsize := by omega
      have hlen : (a :: t).length ≤ q.gsize := nodup_length_le q.gsize _ hnd hv
      have hnext0 : q.next q.tail = a := by
        rw [hq1]
        exact linksTo_last q.next a _ (by simp) hq2
      have hat : a ∉ t := (List.nodup_cons.mp hnd).1
      have hdrain := deqLoop_drain q.next a t a q.gsize hq2 hat
        (by simp at hlen; omega)
      simp [Condition.dequeue, hlneq, hnext0, hfuel, hdrain]

/-- A concrete three-rank condition window whose waiter queue holds ranks
0 and 2 in that enqueue order. -/
def qCex : QState :=
  ⟨3, fun _ => false, fun x => if x = 0 then 2 else if x = 2 then 0 else nullRank, 2⟩

/-- Witness for C9 at the concrete queue `[0, 2]` with `maxnumprocs = 3`. -/
theorem condition_dequeue_drains_witness :
    Condition.dequeue qCex 3 = ([0, 2], { qCex with tail := nullRank }) :=
  (condition_dequeue_drains [0, 2] qCex 3
    ⟨by decide, by decide, ⟨rfl, by decide⟩⟩ (by norm_num [qCex])).1

/-! ## Condition: the associated lock and the public operations -/

/-- The lock associated with a `Condition`: an externally supplied `Mutex`
or `RMutex`, or the `RMutex` the condition allocates and owns; either way
reduced to the local view of the calling rank (window validity and whether
this rank holds it, plus the recursion count for the recursive case). -/
inductive CLock where
  | plain (win held : Bool)
  | rmutex (s : RMutexS)
  deriving DecidableEq, Repr

namespace CLock

/-- `locked()` of the associated lock (`Mutex.locked` or `RMutex.locked`),
raising `AlreadyFreed` on a null lock window. -/
def locked : CLock → Except SyncError Bool
  | .plain win held => if win = false then .error .alreadyFreed else .ok held
  | .rmutex s => RMutex.locked s

/-- `acquire(blocking)` of the associated lock; the outcome of the
underlying mutex acquire is supplied by the oracle `ok`. -/
def acquire : CLock → Bool → Bool → CLock × Except SyncError Bool
  | .plain win held, _, ok =>
      if win = false then (.plain win held, .error .alreadyFreed)
      else if held then (.plain win held, .error .alreadyHeld)
      else if ok then (.plain win true, .ok true) else (.plain win held, .ok false)
  | .rmutex s, blocking, ok =>
      let r := RMutex.acquire s blocking ok
      (.rmutex r.1, r.2)

/-- `release()` of the associated lock. -/
def release : CLock → CLock × Except SyncError Unit
  | .plain win held =>
      if win = false then (.plain win held, .error .alreadyFreed)
      else if held = false then (.plain win held, .error .notHeld)
      else (.plain win false, .ok ())
  | .rmutex s =>
      let r := RMutex.release s
      (.rmutex r.1, r.2)

/-- `Condition._release_save()`: recursive locks capture and zero the
count then release the underlying mutex (returning the saved count); plain
locks just release (saving nothing). -/
def releaseSave : CLock → CLock × Except SyncError (Option Int)
  | .rmutex s =>
      let r := releaseSaveRec s
      (.rmutex r.1, match r.2 with
        | .ok v => .ok (some v)
        | .error e => .error e)
  | .plain win held =>
      if win = false then (.plain win held, .error .alreadyFreed)
      else if held = false then (.plain win held, .error .notHeld)
      else (.plain win false, .ok none)

/-- `Condition._acquire_restore(state)`: recursive locks re-acquire the
underlying mutex and restore the count (the saved state is always present
on this path); plain locks just re-acquire. -/
def acquireRestore : CLock → Option Int → CLock × Except SyncError Unit
  | .rmutex s, st =>
      let r := acquireRestoreRec s (st.getD 0)
      (.rmutex r.1, r.2)
  | .plain win held, _ =>
      if win = false then (.plain win held, .error .alreadyFreed)
      else if held then (.plain win held, .error .alreadyHeld)
      else (.plain win true, .ok ())

end CLock

/-- State of a `Condition` as seen by one rank: the condition window
validity, the associated lock, and the condition window slots. -/
structure CondS where
  win : Bool
  lock : CLock
  q : QState

namespace Condition

/-- `Condition.acquire(blocking)`: raise `AlreadyFreed` when the condition
window is null, else delegate to the lock. -/
def acquire (c : CondS) (blocking ok : Bool) : CondS × Except SyncError Bool :=
  if c.win = false then (c, .error .alreadyFreed)
  else
    let r := CLock.acquire c.lock blocking ok
    ({ c with lock := r.1 }, r.2)

/-- `Condition.release()`: raise `AlreadyFreed` when the condition window
is null, else delegate to the lock. -/
def release (c : CondS) : CondS × Except SyncError Unit :=
  if c.win = false then (c, .error .alreadyFreed)
  else
    let r := CLock.release c.lock
    ({ c with lock := r.1 }, r.2)

/-- `Condition.locked()`: delegates to the lock with no check of the
condition window. -/
def locked (c : CondS) : Except SyncError Bool :=
  CLock.locked c.lock

/-- `Condition.wait()`: freed and not-held guards, enqueue self on the
waiter queue, release the lock saving recursion state, `_sleep` on the
local `FLAG` slot (when no wake is pending the spin cannot finish with no
other rank acting, modelled as `none`; otherwise the flag is consumed),
then re-acquire the lock restoring recursion state and return `True`. -/
def wait (c : CondS) (selfRank : Int) : CondS × Except SyncError (Option Bool) :=
  if c.win = false then (c, .error .alreadyFreed)
  else
    match locked c with
    | .error e => (c, .error e)
    | .ok false => (c, .error .notHeld)
    | .ok true =>
        let c1 : CondS := { c with q := enqueue c.q selfRank }
        let r1 := CLock.releaseSave c1.lock
        match r1.2 with
        | .error e => ({ c1 with lock := r1.1 }, .error e)
        | .ok st =>
            let c2 : CondS := { c1 with lock := r1.1 }
            if c2.q.flag selfRank = true then
              let c3 : CondS :=
                { c2 with q := { c2.q with flag := upd c2.q.flag selfRank false } }
              let r2 := CLock.acquireRestore c3.lock st
              match r2.2 with
              | .error e => ({ c3 with lock := r2.1 }, .error e)
              | .ok _ => ({ c3 with lock := r2.1 }, .ok (some true))
            else (c2, .ok none)

/-- `Condition.wait_for(predicate)`: evaluate the predicate; while falsy,
`wait()` then re-evaluate; return the first truthy result.  `pred i` is
the value of the `i`-th evaluation and `tr` its truthiness; `fuel` bounds
the number of `wait()` rounds (the loop has no other exit), `none`
standing for a run that is still waiting.  The result pairs the first
truthy value with the number of `wait()` calls made before it. -/
def waitFor {α : Type} (tr : α → Bool) (pred : Nat → α) (selfRank : Int) :
    Nat → Nat → CondS → CondS × Except SyncError (Option (α × Nat))
  | i, fuel, c =>
      let result := pred i
      if tr result then (c, .ok (some (result, i)))
      else
        match fuel with
        | 0 => (c, .ok none)
        | fuel + 1 =>
            let r := wait c selfRank
            match r.2 with
            | .error e => (r.1, .error e)
            | .ok none => (r.1, .ok none)
            | .ok (some _) => waitFor tr pred selfRank (i + 1) fuel r.1

/-- `Condition.notify(n)`: freed and not-held guards, dequeue up to `n`
waiters, wake each by replacing its `FLAG` slot with 1, and return the
number of waiters woken. -/
def notify (c : CondS) (n : Int) : CondS × Except SyncError Nat :=
  if c.win = false then (c, .error .alreadyFreed)
  else
    match locked c with
    | .error e => (c, .error e)
    | .ok false => (c, .error .notHeld)
    | .ok true =>
        let r := dequeue c.q n
        let q2 := wakeup r.2 r.1
        ({ c with q := q2 }, .ok r.1.length)

end Condition

theorem wakeup_flag : ∀ (ps : List Int) (q : QState) (x : Int),
    (Condition.wakeup q ps).flag x = (if x ∈ ps then true else q.flag x)
  | [], q, x => by simp [Condition.wakeup]
  | r :: rs, q, x => by
      rw [Condition.wakeup, wakeup_flag rs]
      by_cases hx : x ∈ rs
      · simp [hx]
      · by_cases hxr : x = r
        · subst hxr
          simp [hx, upd_same]
        · simp [hx, hxr, upd_other]

theorem dequeue_flag (q : QState) (m : Int) :
    (Condition.dequeue q m).2.flag = q.flag := by
  rw [Condition.dequeue]
  dsimp only
  split
  · rfl
  · split <;> rfl

/-- `_dequeue` on a well-formed queue holding `L` returns exactly the first
`min(n, |L|)` waiters, in enqueue order. -/
theorem dequeue_take (L : List Int) (q : QState) (n : Nat) (hwf : wfQ L q) :
    (Condition.dequeue q (n : Int)).1 = L.take n := by
  obtain ⟨hnd, hv, hq⟩ := hwf
  cases L with
  | nil =>
      simp only [wfQ] at hq
      simp [Condition.dequeue, hq]
  | cons a t =>
      obtain ⟨hq1, hq2⟩ := hq
      have hlastmem : (a :: t).getLast (by simp) ∈ a :: t := List.getLast_mem _
      have hlastv := hv _ hlastmem
      have hlneq : ¬ (q.tail = nullRank) := by
        rw [hq1]
        intro hc
        rw [hc] at hlastv
        simp only [nullRank] at hlastv
        exact absurd hlastv.1 (by norm_num)
      have hlen : t.length + 1 ≤ q.gsize := by
        have := nodup_length_le q.gsize _ hnd hv
        simpa using this
      have hnext0 : q.next q.tail = a := by
        rw [hq1]
        exact linksTo_last q.next a _ (by simp) hq2
      have hat : a ∉ t := (List.nodup_cons.mp hnd).1
      have hfuel : (max 0 (min ((n : Nat) : Int) (q.gsize : Int))).toNat = min n q.gsize := by
        omega
      rw [Condition.dequeue]
      dsimp only
      rw [if_neg hlneq, hnext0, hfuel]
      by_cases hcase : t.length + 1 ≤ min n q.gsize
      · have hdrain := deqLoop_drain q.next a t a (min n q.gsize) hq2 hat (by omega)
        rw [hdrain]
        have htake : (a :: t).take n = a :: t :=
          List.take_of_length_le (by simp; omega)
        simp [htake]
      · have hmin : min n q.gsize = n := by omega
        have hpart := deqLoop_partial q.next a n t a hq2 hat (by omega)
        rw [hmin, hpart]
        simp

/-- C8: `notify(n)` invoked with the condition window live and the lock
held, on a well-formed waiter queue holding `L`, returns
`min(n, waiters at entry)`; the dequeued ranks are exactly the first
`min(n, |L|)` waiters, each receives exactly one wake (its `FLAG` slot set
to 1; the dequeued ranks are pairwise distinct), and no other rank's
`FLAG` slot changes. -/
theorem condition_notify_wakes (L : List Int) (c : CondS) (n : Nat)
    (hwf : wfQ L c.q) (hwin : c.win = true)
    (hheld : Condition.locked c = .ok true) :
    (Condition.notify c (n : Int)).2 = .ok (min n L.length) ∧
    (∀ x ∈ L.take n, (Condition.notify c (n : Int)).1.q.flag x = true) ∧
    (∀ x, x ∉ L.take n → (Condition.notify c (n : Int)).1.q.flag x = c.q.flag x) ∧
    (L.take n).Nodup := by
  have htake := dequeue_take L c.q n hwf
  have hnotify : Condition.notify c (n : Int) =
      ({ c with
          q := Condition.wakeup (Condition.dequeue c.q (n : Int)).2
                 (Condition.dequeue c.q (n : Int)).1 },
        .ok (Condition.dequeue c.q (n : Int)).1.length) := by
    rw [Condition.notify, if_neg (by rw [hwin]; simp), hheld]
  refine ⟨?_, ?_, ?_, ?_⟩
  · rw [hnotify]
    simp [htake, List.length_take]
  · intro x hx
    rw [hnotify]
    simp only [wakeup_flag, htake]
    simp [hx]
  · intro x hx
    rw [hnotify]
    simp only [wakeup_flag, htake]
    simp [hx, dequeue_flag]
  · exact (List.take_sublist n L).nodup hwf.1

/-- A condition state whose window is live, whose lock is a held plain
mutex, and whose waiter queue is the concrete queue `[0, 2]`. -/
def condCex : CondS :=
  ⟨true, .plain true true, qCex⟩

/-- Witness for C8 at the concrete queue `[0, 2]` with `n = 1`. -/
theorem condition_notify_wakes_witness :
    (Condition.notify condCex (1 : Nat)).2 = .ok (min 1 [0, 2].length) ∧
    (∀ x ∈ [0, 2].take 1, (Condition.notify condCex (1 : Nat)).1.q.flag x = true) :=
  ⟨(condition_notify_wakes [0, 2] condCex 1
      ⟨by decide, by decide, ⟨rfl, by decide⟩⟩ rfl rfl).1,
    (condition_notify_wakes [0, 2] condCex 1
      ⟨by decide, by decide, ⟨rfl, by decide⟩⟩ rfl rfl).2.1⟩

/-- C10: `wait_for(p)` evaluates the predicate before any check; whenever
the first evaluation is truthy it returns that value having made zero
`wait()` calls and leaving the state untouched, for every condition state
— window freed or live, lock held or not — so it neither raises `NotHeld`
for a non-holder nor `AlreadyFreed` after `free()` in that case. -/
theorem condition_wait_for_truthy {α : Type} (tr : α → Bool) (pred : Nat → α)
    (selfRank : Int) (fuel : Nat) (c : CondS) (h : tr (pred 0) = true) :
    Condition.waitFor tr pred selfRank 0 fuel c = (c, .ok (some (pred 0, 0))) := by
  rw [Condition.waitFor.eq_def]
  simp [h]

/-- A freed condition (window null) whose externally supplied plain lock is
still live and not held by this rank, with an empty waiter queue. -/
def condFreedCex : CondS :=
  ⟨false, .plain true false, ⟨2, fun _ => false, fun _ => nullRank, nullRank⟩⟩

/-- Witness for C10: on the freed, non-holding condition state, `wait_for`
with an immediately truthy predicate returns the value with no error. -/
theorem condition_wait_for_truthy_witness :
    Condition.waitFor (fun v : Int => decide (v ≠ 0)) (fun _ => 1) 0 0 5 condFreedCex =
      (condFreedCex, .ok (some (1, 0))) :=
  condition_wait_for_truthy (fun v : Int => decide (v ≠ 0)) (fun _ => 1) 0 5
    condFreedCex (by decide)

/-- C3 counterexample to the claim as stated: on a freed condition whose
externally supplied lock is still live, `Condition.locked()` returns
normally (here `ok false`) instead of raising `AlreadyFreed`, because it
delegates to the lock with no window check. -/
theorem condition_locked_after_free_counterexample :
    condFreedCex.win = false ∧ Condition.locked condFreedCex = .ok false :=
  ⟨rfl, rfl⟩

/-- C3 (amended): after `free()`, operations raise `AlreadyFreed` —
`Counter.next`, `Mutex.acquire`/`release`/`locked`,
`RMutex.acquire`/`release`/`locked`, and
`Condition.acquire`/`release`/`wait`/`notify` — with these exceptions:
`RMutex.count()` returns the local count with no check;
`Condition.locked()` performs no condition-window check and simply
delegates to the associated lock (raising `AlreadyFreed` only if the lock
itself is freed); and `Condition.wait_for(p)` evaluates `p` before any
check and returns without error whenever the first evaluation is
truthy. -/
theorem already_freed_after_free
    (s : CounterS) (hs : s.win = false) (incr : Option Int)
    (N : Nat) (g : MutexG N) (hg : g.win = false) (r : Fin N) (blocking : Bool)
    (rs : RMutexS) (hrs : rs.blockWin = false) (ok : Bool)
    (c : CondS) (hc : c.win = false) (selfRank : Int) (n : Int)
    {α : Type} (tr : α → Bool) (pred : Nat → α) (fuel : Nat)
    (htr : tr (pred 0) = true) :
    Counter.next s incr = .error .alreadyFreed ∧
    Mutex.acquire g r blocking = .error .alreadyFreed ∧
    Mutex.release g r = .error .alreadyFreed ∧
    Mutex.locked g r = .error .alreadyFreed ∧
    (RMutex.acquire rs blocking ok).2 = .error .alreadyFreed ∧
    (RMutex.release rs).2 = .error .alreadyFreed ∧
    RMutex.locked rs = .error .alreadyFreed ∧
    (Condition.acquire c blocking ok).2 = .error .alreadyFreed ∧
    (Condition.release c).2 = .error .alreadyFreed ∧
    (Condition.wait c selfRank).2 = .error .alreadyFreed ∧
    (Condition.notify c n).2 = .error .alreadyFreed ∧
    RMutex.count rs = rs.count ∧
    Condition.locked c = CLock.locked c.lock ∧
    Condition.waitFor tr pred selfRank 0 fuel c = (c, .ok (some (pred 0, 0))) := by
  refine ⟨by simp [Counter.next, hs], by simp [Mutex.acquire, hg],
    by simp [Mutex.release, hg], by simp [Mutex.locked, hg],
    by simp [RMutex.acquire, RMutex.locked, hrs],
    by simp [RMutex.release, RMutex.locked, hrs],
    by simp [RMutex.locked, hrs],
    by simp [Condition.acquire, hc], by simp [Condition.release, hc],
    by simp [Condition.wait, hc], by simp [Condition.notify, hc],
    rfl, rfl, condition_wait_for_truthy tr pred selfRank fuel c htr⟩

/-! ## Mutex: fine-grained concurrent semantics (claim C1)

Any number of ranks concurrently invoke `acquire` (blocking or not) and
`release` on one mutex.  Each RMA atomic (`Accumulate`, `Fetch_and_op`,
`Compare_and_swap`) is one transition; `Flush`/`Sync` and the epoch
brackets only order completion and change no window state; a spin poll
that reads the sentinel is a stutter.  An arbitrary scheduler interleaves
the ranks. -/

/-- Program point of one rank inside the acquire/release protocols.
`aSetNext b` through `aDone v` are the steps of `acquire(blocking = b)`:
clear own `NEXT`; swap/CAS on `TAIL` (branching on the fetched tail);
link the predecessor's `NEXT` (blocking, contended); spin on own `LOCK`;
write own `LOCK := v` and return `v`.  `rCAS` through `rClear` are the
steps of `release()`: CAS on `TAIL`; spin on own `NEXT`; write the
successor's `LOCK := 1`; clear own `LOCK`. -/
inductive PC (N : Nat) where
  | idle
  | aSetNext (b : Bool)
  | aSwap (b : Bool)
  | aLink (p : Fin N)
  | aSpin
  | aDone (v : Bool)
  | holding
  | rCAS
  | rSpin
  | rHandoff (s : Fin N)
  | rClear
  deriving DecidableEq, Repr

/-- Global configuration: the mutex window (per-rank `LOCK` and `NEXT`,
`TAIL` on rank 0) plus each rank's program point. -/
structure Config (N : Nat) where
  lock : Fin N → Bool
  next : Fin N → Option (Fin N)
  tail : Option (Fin N)
  pc : Fin N → PC N

/-- All ranks idle on the freshly initialized window. -/
def initConfig (N : Nat) : Config N :=
  ⟨fun _ => false, fun _ => none, none, fun _ => .idle⟩

/-- One atomic step of rank `r`; `choice` selects blocking vs non-blocking
when an idle rank calls `acquire`.  The `idle` guard is `acquire`'s
`AlreadyHeld` check and the `holding` guard is `release`'s `NotHeld`
check (raising leaves the state unchanged). -/
def step {N : Nat} (c : Config N) (r : Fin N) (choice : Bool) : Config N :=
  match c.pc r with
  | .idle =>
      if c.lock r then c else { c with pc := upd c.pc r (.aSetNext choice) }
  | .aSetNext b =>
      { c with next := upd c.next r none, pc := upd c.pc r (.aSwap b) }
  | .aSwap b =>
      if b then
        match c.tail with
        | none => { c with tail := some r, pc := upd c.pc r (.aDone true) }
        | some p => { c with tail := some r, pc := upd c.pc r (.aLink p) }
      else
        match c.tail with
        | none => { c with tail := some r, pc := upd c.pc r (.aDone true) }
        | some _ => { c with pc := upd c.pc r (.aDone false) }
  | .aLink p =>
      { c with next := upd c.next p (some r), pc := upd c.pc r .aSpin }
  | .aSpin =>
      if c.lock r then { c with pc := upd c.pc r (.aDone true) } else c
  | .aDone v =>
      { c with lock := upd c.lock r v,
               pc := upd c.pc r (if v then .holding else .idle) }
  | .holding =>
      if c.lock r then { c with pc := upd c.pc r .rCAS } else c
  | .rCAS =>
      if c.tail = some r then { c with tail := none, pc := upd c.pc r .rClear }
      else { c with pc := upd c.pc r .rSpin }
  | .rSpin =>
      match c.next r with
      | some s => { c with pc := upd c.pc r (.rHandoff s) }
      | none => c
  | .rHandoff s =>
      { c with lock := upd c.lock s true, pc := upd c.pc r .rClear }
  | .rClear =>
      { c with lock := upd c.lock r false, pc := upd c.pc r .idle }

/-- Run a schedule from a configuration (chronological order). -/
def runFrom {N : Nat} (c : Config N) : List (Fin N × Bool) → Config N
  | [] => c
  | e :: sched => runFrom (step c e.1 e.2) sched

/-- Run a schedule from the initial configuration. -/
def run (N : Nat) (sched : List (Fin N × Bool)) : Config N :=
  runFrom (initConfig N) sched

/-- C1 counterexample to the claim as stated: with two ranks, rank 0
acquires, rank 1 enqueues behind it and spins, rank 0 releases and has
performed the handoff write to rank 1's `LOCK` slot but not yet the final
write clearing its own `LOCK` slot.  In this reachable state both ranks
have `LOCK = 1`. -/
theorem mutex_lock_mutual_exclusion_counterexample :
    (run 2 [(0, true), (0, true), (0, true), (0, true),
            (1, true), (1, true), (1, true), (1, true),
            (0, true), (0, true), (0, true), (0, true)]).lock 0 = true ∧
    (run 2 [(0, true), (0, true), (0, true), (0, true),
            (1, true), (1, true), (1, true), (1, true),
            (0, true), (0, true), (0, true), (0, true)]).lock 1 = true := by
  decide

/-- Program points at which a rank is a member of the mutex queue (it has
swapped itself onto `TAIL` and has not yet been popped). -/
def inQueue {N : Nat} : PC N → Prop
  | .aLink _ => True
  | .aSpin => True
  | .aDone v => v = true
  | .holding => True
  | .rCAS => True
  | .rSpin => True
  | .rHandoff _ => True
  | _ => False

/-- Ownership condition as a function of a program point and the value of
the own `LOCK` slot. -/
def ownerishAux {N : Nat} : PC N → Bool → Prop
  | .aDone v, _ => v = true
  | .holding, _ => True
  | .rCAS, _ => True
  | .rSpin, _ => True
  | .rHandoff _, _ => True
  | .aSpin, lk => lk = true
  | _, _ => False

/-- The queue head owns the mutex: it is past the point where it acquired
(uncontended swap, or its `LOCK` slot set by the handoff) and before the
instant ownership passes to a successor. -/
def ownerish {N : Nat} (c : Config N) (h : Fin N) : Prop :=
  ownerishAux (c.pc h) (c.lock h)

/-- Adjacency condition as a function of the successor's `LOCK` and
program point and the predecessor's `NEXT` slot. -/
def adjAux {N : Nat} (a b : Fin N) (lkb : Bool) (pcb : PC N)
    (nxa : Option (Fin N)) : Prop :=
  lkb = false ∧ ((pcb = .aLink a ∧ nxa = none) ∨ (pcb = .aSpin ∧ nxa = some b))

/-- Adjacent queue members `a` (predecessor) and `b` (successor): `b` is
either still about to link (`a`'s `NEXT` not yet written) or already
linked and spinning. -/
def Adj {N : Nat} (c : Config N) (a b : Fin N) : Prop :=
  adjAux a b (c.lock b) (c.pc b) (c.next a)

theorem Adj_congr {N : Nat} (c c2 : Config N) (a b : Fin N)
    (hl : c2.lock b = c.lock b) (hp : c2.pc b = c.pc b)
    (hn : c2.next a = c.next a) (h : Adj c a b) : Adj c2 a b := by
  rw [Adj, hl, hp, hn]
  exact h

theorem ownerish_congr {N : Nat} (c c2 : Config N) (h : Fin N)
    (hp : c2.pc h = c.pc h) (hl : c2.lock h = c.lock h)
    (ho : ownerish c h) : ownerish c2 h := by
  rw [ownerish, hp, hl]
  exact ho

/-- The queue chain: each adjacent pair satisfies `Adj` and the last
member's `NEXT` is still `NULL_RANK`. -/
def chainOk {N : Nat} (c : Config N) : List (Fin N) → Prop
  | [] => True
  | [a] => c.next a = none
  | a :: b :: t => Adj c a b ∧ chainOk c (b :: t)

/-- Program points that imply the rank's own `LOCK` slot is 1. -/
def pcLocked {N : Nat} : PC N → Prop
  | .holding => True
  | .rCAS => True
  | .rSpin => True
  | .rHandoff _ => True
  | .rClear => True
  | _ => False

/-- The inductive invariant of the mutex protocol: some list `Q` (owner
first, tail last) is the current queue; `TAIL` points at its last member;
membership is determined by the program point; the head is the owner; the
chain is well linked; a set `LOCK` slot belongs to the head or to a
releaser that has not yet cleared it; ranks inside release (or parked at
its final clear) have `LOCK = 1`; a pending handoff targets the spinning
second member; and a rank between its `NEXT`-clear and its `TAIL` swap has
`NEXT = NULL_RANK`. -/
def Inv {N : Nat} (c : Config N) : Prop :=
  ∃ Q : List (Fin N),
    Q.Nodup ∧
    c.tail = Q.getLast? ∧
    (∀ r : Fin N, r ∈ Q ↔ inQueue (c.pc r)) ∧
    (∀ h : Fin N, Q.head? = some h → ownerish c h) ∧
    chainOk c Q ∧
    (∀ r : Fin N, c.lock r = true → Q.head? = some r ∨ c.pc r = .rClear) ∧
    (∀ r : Fin N, pcLocked (c.pc r) → c.lock r = true) ∧
    (∀ h s : Fin N, Q.head? = some h → c.pc h = .rHandoff s →
      Q.tail.head? = some s ∧ c.pc s = .aSpin) ∧
    (∀ r : Fin N, ∀ b : Bool, c.pc r = .aSwap b → c.next r = none)

theorem chainOk_tail {N : Nat} (c : Config N) (a : Fin N) (T : List (Fin N))
    (h : chainOk c (a :: T)) : chainOk c T := by
  cases T with
  | nil => trivial
  | cons b t => exact h.2

theorem chainOk_tail_facts {N : Nat} (c : Config N) :
    ∀ Q : List (Fin N), chainOk c Q → ∀ b ∈ Q.tail,
      c.lock b = false ∧ ((∃ a, c.pc b = .aLink a) ∨ c.pc b = .aSpin)
  | [], _, b, hb => absurd hb (by simp)
  | [a], _, b, hb => absurd hb (by simp)
  | a :: b2 :: t, h, b, hb => by
      simp only [List.tail_cons] at hb
      rcases List.mem_cons.mp hb with hb | hb
      · subst hb
        obtain ⟨hl, hd⟩ := h.1
        exact ⟨hl, by rcases hd with ⟨hd, _⟩ | ⟨hd, _⟩
                      · exact Or.inl ⟨a, hd⟩
                      · exact Or.inr hd⟩
      · exact chainOk_tail_facts c (b2 :: t) h.2 b (by simpa using hb)

/-- A queue member whose program point is neither `aLink` nor `aSpin` is
the head. -/
theorem mem_head_of_not_waiting {N : Nat} (c : Config N) (Q : List (Fin N))
    (hco : chainOk c Q) (r : Fin N) (hr : r ∈ Q)
    (hpc : (∀ a, c.pc r ≠ .aLink a) ∧ c.pc r ≠ .aSpin) :
    Q.head? = some r := by
  cases Q with
  | nil => exact absurd hr (by simp)
  | cons h T =>
      rcases List.mem_cons.mp hr with hr | hr
      · simp [hr]
      · exfalso
        have := chainOk_tail_facts c (h :: T) hco r (by simpa using hr)
        rcases this.2 with ⟨a, ha⟩ | ha
        · exact hpc.1 a ha
        · exact hpc.2 ha

theorem chainOk_mono {N : Nat} (c c2 : Config N) :
    ∀ Q : List (Fin N),
      (∀ a b : Fin N, a ∈ Q → b ∈ Q → Adj c a b → Adj c2 a b) →
      (∀ t : Fin N, Q.getLast? = some t → c.next t = none → c2.next t = none) →
      chainOk c Q → chainOk c2 Q
  | [], _, _, _ => trivial
  | [a], _, hlast, h => hlast a rfl h
  | a :: b :: t, hAdj, hlast, h => by
      refine ⟨hAdj a b (by simp) (by simp) h.1, ?_⟩
      exact chainOk_mono c c2 (b :: t)
        (fun x y hx hy => hAdj x y (by simp [hx]) (by simp [hy]))
        (fun x hx => hlast x (by simpa [List.getLast?_cons_cons] using hx)) h.2

theorem chainOk_append {N : Nat} (c : Config N) (r : Fin N) :
    ∀ (Q : List (Fin N)) (hne : Q ≠ []), chainOk c Q →
      Adj c (Q.getLast hne) r → c.next r = none → chainOk c (Q ++ [r])
  | [], hne, _, _, _ => absurd rfl hne
  | [a], _, hco, hAdj, hr => ⟨hAdj, hr⟩
  | a :: b :: t, _, hco, hAdj, hr => by
      refine ⟨hco.1, ?_⟩
      exact chainOk_append c r (b :: t) (by simp) hco.2
        (by simpa [List.getLast] using hAdj) hr

/-- A nonempty `Nodup` list whose head and last element agree is a
singleton. -/
theorem head_eq_last_singleton {N : Nat} (Q : List (Fin N)) (r : Fin N)
    (hnd : Q.Nodup) (hh : Q.head? = some r) (hl : Q.getLast? = some r) :
    Q = [r] := by
  cases Q with
  | nil => simp at hh
  | cons a T =>
      simp only [List.head?_cons, Option.some_inj] at hh
      subst hh
      cases T with
      | nil => rfl
      | cons b t =>
          exfalso
          have hmem : (b :: t).getLast (by simp) ∈ b :: t := List.getLast_mem _
          have hlast : (a :: b :: t).getLast? = some ((b :: t).getLast (by simp)) := by
            rw [List.getLast?_cons_cons]
            exact List.getLast?_eq_getLast _ (by simp)
          rw [hlast, Option.some_inj] at hl
          rw [hl] at hmem
          exact (List.nodup_cons.mp hnd).1 hmem

/-- The head `r` of the queue reads a non-null own `NEXT` only when the
second member has linked itself and is spinning. -/
theorem next_of_head {N : Nat} (c : Config N) (r s : Fin N) (T : List (Fin N))
    (hco : chainOk c (r :: T)) (hnx : c.next r = some s) :
    ∃ T2, T = s :: T2 ∧ c.pc s = .aSpin ∧ c.lock s = false := by
  cases T with
  | nil =>
      exfalso
      have : c.next r = none := hco
      rw [this] at hnx
      exact Option.noConfusion hnx
  | cons b t =>
      obtain ⟨hl, hd⟩ := hco.1
      rcases hd with ⟨hd, hn⟩ | ⟨hd, hn⟩
      · rw [hn] at hnx; exact Option.noConfusion hnx
      · rw [hn, Option.some_inj] at hnx
        subst hnx
        exact ⟨t, rfl, hd, hl⟩

theorem inv_init (N : Nat) : Inv (initConfig N) := by
  refine ⟨[], by simp, by simp [initConfig], ?_, by simp, trivial, ?_, ?_, by simp, ?_⟩
  · intro r
    simp [initConfig, inQueue]
  · intro r hr
    simp [initConfig] at hr
  · intro r hr
    simp [initConfig, pcLocked] at hr
  · intro r b hr
    simp [initConfig] at hr

theorem mem_of_head?_eq {N : Nat} {Q : List (Fin N)} {h : Fin N}
    (hh : Q.head? = some h) : h ∈ Q :=
  List.mem_of_mem_head? (Option.mem_def.mpr hh)

theorem mem_of_getLast?_eq {N : Nat} {Q : List (Fin N)} {t : Fin N}
    (ht : Q.getLast? = some t) : t ∈ Q :=
  List.mem_of_mem_getLast? (Option.mem_def.mpr ht)

theorem head?_append_left {N : Nat} (Q : List (Fin N)) (r : Fin N) (h : Q ≠ []) :
    (Q ++ [r]).head? = Q.head? := by
  cases Q with
  | nil => exact absurd rfl h
  | cons a t => rfl

theorem chainOk_last_next {N : Nat} (c : Config N) :
    ∀ (Q : List (Fin N)) (t : Fin N), chainOk c Q → Q.getLast? = some t →
      c.next t = none
  | [], t, _, h => by simp at h
  | [a], t, hco, h => by
      simp only [List.getLast?_singleton, Option.some_inj] at h
      rw [← h]
      exact hco
  | a :: b :: T, t, hco, h =>
      chainOk_last_next c (b :: T) t hco.2
        (by rw [← List.getLast?_cons_cons]; exact h)

/-- Generic preservation: a step that only moves rank `r` from one
non-queue, non-lock-implying, non-`rClear` program point to another
preserves the invariant with the same queue. -/
theorem inv_pcchange_out {N : Nat} (c : Config N) (r : Fin N) (p2 : PC N)
    (h : Inv c) (hrQn : ¬ inQueue (c.pc r)) (hold : c.pc r ≠ .rClear)
    (hp2q : ¬ inQueue p2) (hp2l : ¬ pcLocked p2) (hp2c : p2 ≠ .rClear)
    (hp2s : ∀ b : Bool, p2 ≠ .aSwap b) :
    Inv { c with pc := upd c.pc r p2 } := by
  obtain ⟨Q, hnd, htl, hmem, hhead, hco, hlk, hplk, hho, hsw⟩ := h
  have hrQ : r ∉ Q := fun hr => hrQn ((hmem r).mp hr)
  have hlr : c.lock r = false := by
    cases hl : c.lock r with
    | false => rfl
    | true =>
        rcases hlk r hl with hh | hh
        · exact absurd (mem_of_head?_eq hh) hrQ
        · exact absurd hh hold
  refine ⟨Q, hnd, htl, ?_, ?_, ?_, ?_, ?_, ?_, ?_⟩
  · intro x
    dsimp only
    by_cases hx : x = r
    · subst hx
      rw [upd_same]
      exact ⟨fun hx2 => absurd hx2 hrQ, fun hx2 => absurd hx2 hp2q⟩
    · rw [upd_other _ _ _ _ hx]
      exact hmem x
  · intro h2 hh
    have hne : h2 ≠ r := fun hc => hrQ (hc ▸ mem_of_head?_eq hh)
    exact ownerish_congr c _ h2 (by dsimp only; rw [upd_other _ _ _ _ hne]) rfl
      (hhead h2 hh)
  · refine chainOk_mono c _ Q ?_ ?_ hco
    · intro a b ha hb hadj
      have hbr : b ≠ r := fun hc => hrQ (hc ▸ hb)
      exact Adj_congr c _ a b rfl (by dsimp only; rw [upd_other _ _ _ _ hbr]) rfl hadj
    · intro t ht hn
      exact hn
  · intro x hx
    dsimp only at hx
    by_cases hxr : x = r
    · subst hxr
      rw [hlr] at hx
      exact absurd hx (by simp)
    · rcases hlk x hx with hh | hh
      · exact Or.inl hh
      · refine Or.inr ?_
        dsimp only
        rw [upd_other _ _ _ _ hxr]
        exact hh
  · intro x hx
    dsimp only at hx ⊢
    by_cases hxr : x = r
    · subst hxr
      rw [upd_same] at hx
      exact absurd hx hp2l
    · rw [upd_other _ _ _ _ hxr] at hx
      exact hplk x hx
  · intro h2 s hh hpc2
    dsimp only at hpc2
    have hne : h2 ≠ r := fun hc => hrQ (hc ▸ mem_of_head?_eq hh)
    rw [upd_other _ _ _ _ hne] at hpc2
    obtain ⟨hts, hps⟩ := hho h2 s hh hpc2
    have hsQ : s ∈ Q := List.mem_of_mem_tail (mem_of_head?_eq hts)
    have hsr : s ≠ r := fun hc => hrQ (hc ▸ hsQ)
    refine ⟨hts, ?_⟩
    dsimp only
    rw [upd_other _ _ _ _ hsr]
    exact hps
  · intro x b hx
    dsimp only at hx ⊢
    by_cases hxr : x = r
    · subst hxr
      rw [upd_same] at hx
      exact absurd hx (hp2s b)
    · rw [upd_other _ _ _ _ hxr] at hx
      exact hsw x b hx

theorem inv_step_idle {N : Nat} (c : Config N) (r : Fin N) (choice : Bool)
    (h : Inv c) (hpcr : c.pc r = .idle) : Inv (step c r choice) := by
  rw [step, hpcr]
  by_cases hl : c.lock r = true
  · rw [if_pos hl]
    exact h
  · rw [if_neg hl]
    exact inv_pcchange_out c r (.aSetNext choice) h
      (by rw [hpcr]; simp [inQueue]) (by rw [hpcr]; simp)
      (by simp [inQueue]) (by simp [pcLocked]) (by simp) (by simp)

theorem inv_step_aSetNext {N : Nat} (c : Config N) (r : Fin N) (choice : Bool)
    (b : Bool) (h : Inv c) (hpcr : c.pc r = .aSetNext b) : Inv (step c r choice) := by
  rw [step, hpcr]
  obtain ⟨Q, hnd, htl, hmem, hhead, hco, hlk, hplk, hho, hsw⟩ := h
  have hrQ : r ∉ Q := fun hr => by
    have h2 := (hmem r).mp hr
    rw [hpcr] at h2
    simp [inQueue] at h2
  have hlr : c.lock r = false := by
    cases hl : c.lock r with
    | false => rfl
    | true =>
        rcases hlk r hl with hh | hh
        · exact absurd (mem_of_head?_eq hh) hrQ
        · rw [hpcr] at hh; exact PC.noConfusion hh
  refine ⟨Q, hnd, htl, ?_, ?_, ?_, ?_, ?_, ?_, ?_⟩
  · intro x
    dsimp only
    by_cases hx : x = r
    · subst hx
      rw [upd_same]
      exact ⟨fun hx2 => absurd hx2 hrQ, fun hx2 => by simp [inQueue] at hx2⟩
    · rw [upd_other _ _ _ _ hx]
      exact hmem x
  · intro h2 hh
    have hne : h2 ≠ r := fun hc => hrQ (hc ▸ mem_of_head?_eq hh)
    exact ownerish_congr c _ h2 (by dsimp only; rw [upd_other _ _ _ _ hne]) rfl
      (hhead h2 hh)
  · refine chainOk_mono c _ Q ?_ ?_ hco
    · intro a b2 ha hb hadj
      have hbr : b2 ≠ r := fun hc => hrQ (hc ▸ hb)
      have har : a ≠ r := fun hc => hrQ (hc ▸ ha)
      exact Adj_congr c _ a b2 rfl (by dsimp only; rw [upd_other _ _ _ _ hbr])
        (by dsimp only; rw [upd_other _ _ _ _ har]) hadj
    · intro t ht hn
      have htr : t ≠ r := fun hc => hrQ (hc ▸ mem_of_getLast?_eq ht)
      dsimp only
      rw [upd_other _ _ _ _ htr]
      exact hn
  · intro x hx
    dsimp only at hx
    by_cases hxr : x = r
    · subst hxr
      rw [hlr] at hx
      exact absurd hx (by simp)
    · rcases hlk x hx with hh | hh
      · exact Or.inl hh
      · exact Or.inr (by dsimp only; rw [upd_other _ _ _ _ hxr]; exact hh)
  · intro x hx
    dsimp only at hx ⊢
    by_cases hxr : x = r
    · subst hxr
      rw [upd_same] at hx
      simp [pcLocked] at hx
    · rw [upd_other _ _ _ _ hxr] at hx
      exact hplk x hx
  · intro h2 s hh hpc2
    dsimp only at hpc2
    have hne : h2 ≠ r := fun hc => hrQ (hc ▸ mem_of_head?_eq hh)
    rw [upd_other _ _ _ _ hne] at hpc2
    obtain ⟨hts, hps⟩ := hho h2 s hh hpc2
    have hsQ : s ∈ Q := List.mem_of_mem_tail (mem_of_head?_eq hts)
    have hsr : s ≠ r := fun hc => hrQ (hc ▸ hsQ)
    exact ⟨hts, by dsimp only; rw [upd_other _ _ _ _ hsr]; exact hps⟩
  · intro x b2 hx
    dsimp only at hx ⊢
    by_cases hxr : x = r
    · subst hxr
      rw [upd_same]
    · rw [upd_other _ _ _ _ hxr] at hx
      rw [upd_other (f := c.next) _ _ _ hxr]
      exact hsw x b2 hx

theorem inv_step_aSwap {N : Nat} (c : Config N) (r : Fin N) (choice : Bool)
    (b : Bool) (h : Inv c) (hpcr : c.pc r = .aSwap b) : Inv (step c r choice) := by
  have hInv := h
  obtain ⟨Q, hnd, htl, hmem, hhead, hco, hlk, hplk, hho, hsw⟩ := h
  have hrQ : r ∉ Q := fun hr => by
    have h2 := (hmem r).mp hr
    rw [hpcr] at h2
    simp [inQueue] at h2
  have hlr : c.lock r = false := by
    cases hl : c.lock r with
    | false => rfl
    | true =>
        rcases hlk r hl with hh | hh
        · exact absurd (mem_of_head?_eq hh) hrQ
        · rw [hpcr] at hh; exact PC.noConfusion hh
  have hnr : c.next r = none := hsw r b hpcr
  rw [step, hpcr]
  cases htail : c.tail with
  | none =>
      have hQnil : Q = [] := by
        cases hQ : Q with
        | nil => rfl
        | cons a T =>
            rw [htail, hQ] at htl
            rw [List.getLast?_eq_getLast_of_ne_nil (by simp)] at htl
            exact Option.noConfusion htl
      subst hQnil
      have hgoal : Inv { c with tail := some r, pc := upd c.pc r (.aDone true) } := by
        refine ⟨[r], by simp, by simp, ?_, ?_, ?_, ?_, ?_, ?_, ?_⟩
        · intro x
          dsimp only
          by_cases hx : x = r
          · subst hx
            rw [upd_same]
            simp [inQueue]
          · rw [upd_other _ _ _ _ hx]
            constructor
            · intro hx2
              simp at hx2
              exact absurd hx2 hx
            · intro hx2
              exact absurd ((hmem x).mpr hx2) (by simp)
        · intro h2 hh
          simp only [List.head?_cons, Option.some_inj] at hh
          subst hh
          rw [ownerish]
          dsimp only
          rw [upd_same]
          exact rfl
        · show ({ c with tail := some r, pc := upd c.pc r (.aDone true) } :
            Config N).next r = none
          exact hnr
        · intro x hx
          dsimp only at hx
          by_cases hxr : x = r
          · subst hxr
            rw [hlr] at hx
            exact absurd hx (by simp)
          · rcases hlk x hx with hh | hh
            · simp at hh
            · exact Or.inr (by dsimp only; rw [upd_other _ _ _ _ hxr]; exact hh)
        · intro x hx
          dsimp only at hx ⊢
          by_cases hxr : x = r
          · subst hxr
            rw [upd_same] at hx
            simp [pcLocked] at hx
          · rw [upd_other _ _ _ _ hxr] at hx
            exact hplk x hx
        · intro h2 s hh hpc2
          simp only [List.head?_cons, Option.some_inj] at hh
          subst hh
          dsimp only at hpc2
          rw [upd_same] at hpc2
          exact PC.noConfusion hpc2
        · intro x b2 hx
          dsimp only at hx ⊢
          by_cases hxr : x = r
          · subst hxr
            rw [upd_same] at hx
            exact PC.noConfusion hx
          · rw [upd_other _ _ _ _ hxr] at hx
            exact hsw x b2 hx
      cases b with
      | true => simpa using hgoal
      | false => simpa using hgoal
  | some t =>
      have htl2 : Q.getLast? = some t := by rw [← htl, htail]
      have hQne : Q ≠ [] := by
        intro hq
        rw [hq] at htl2
        exact Option.noConfusion htl2
      have htQ : t ∈ Q := mem_of_getLast?_eq htl2
      have htr : t ≠ r := fun hc => hrQ (hc ▸ htQ)
      have hgl : Q.getLast hQne = t := by
        have := List.getLast?_eq_getLast_of_ne_nil hQne
        rw [htl2] at this
        exact (Option.some_inj.mp this).symm
      cases b with
      | false =>
          have hres : Inv { c with pc := upd c.pc r (.aDone false) } :=
            inv_pcchange_out c r (.aDone false) hInv
              (by rw [hpcr]; simp [inQueue]) (by rw [hpcr]; simp)
              (by simp [inQueue]) (by simp [pcLocked]) (by simp) (by simp)
          rw [htail] at hres
          simpa using hres
      | true =>
          have hgoal : Inv { c with tail := some r, pc := upd c.pc r (.aLink t) } := by
            refine ⟨Q ++ [r], ?_, ?_, ?_, ?_, ?_, ?_, ?_, ?_, ?_⟩
            · rw [List.nodup_append]
              refine ⟨hnd, by simp, ?_⟩
              intro x hx hx2
              simp only [List.mem_singleton] at hx2
              subst hx2
              exact hrQ hx
            · dsimp only
              rw [List.getLast?_concat]
            · intro x
              dsimp only
              by_cases hx : x = r
              · subst hx
                rw [upd_same]
                simp [inQueue]
              · rw [upd_other _ _ _ _ hx]
                rw [List.mem_append]
                constructor
                · intro hx2
                  rcases hx2 with hx2 | hx2
                  · exact (hmem x).mp hx2
                  · simp at hx2; exact absurd hx2 hx
                · intro hx2
                  exact Or.inl ((hmem x).mpr hx2)
            · intro h2 hh
              rw [head?_append_left Q r hQne] at hh
              have hne : h2 ≠ r := fun hc => hrQ (hc ▸ mem_of_head?_eq hh)
              exact ownerish_congr c _ h2
                (by dsimp only; rw [upd_other _ _ _ _ hne]) rfl (hhead h2 hh)
            · have hcoQ : chainOk { c with tail := some r, pc := upd c.pc r (.aLink t) } Q := by
                refine chainOk_mono c _ Q ?_ ?_ hco
                · intro a b2 ha hb hadj
                  have hbr : b2 ≠ r := fun hc => hrQ (hc ▸ hb)
                  exact Adj_congr c _ a b2 rfl
                    (by dsimp only; rw [upd_other _ _ _ _ hbr]) rfl hadj
                · intro t2 ht2 hn
                  exact hn
              refine chainOk_append _ r Q hQne hcoQ ?_ ?_
              · rw [hgl]
                refine ⟨hlr, Or.inl ⟨?_, ?_⟩⟩
                · dsimp only
                  rw [upd_same]
                · exact chainOk_last_next c Q t hco htl2
              · exact hnr
            · intro x hx
              dsimp only at hx
              by_cases hxr : x = r
              · subst hxr
                rw [hlr] at hx
                exact absurd hx (by simp)
              · rcases hlk x hx with hh | hh
                · exact Or.inl (by rw [head?_append_left Q r hQne]; exact hh)
                · exact Or.inr (by dsimp only; rw [upd_other _ _ _ _ hxr]; exact hh)
            · intro x hx
              dsimp only at hx ⊢
              by_cases hxr : x = r
              · subst hxr
                rw [upd_same] at hx
                simp [pcLocked] at hx
              · rw [upd_other _ _ _ _ hxr] at hx
                exact hplk x hx
            · intro h2 s hh hpc2
              rw [head?_append_left Q r hQne] at hh
              have hne : h2 ≠ r := fun hc => hrQ (hc ▸ mem_of_head?_eq hh)
              dsimp only at hpc2
              rw [upd_other _ _ _ _ hne] at hpc2
              obtain ⟨hts, hps⟩ := hho h2 s hh hpc2
              have hsQ : s ∈ Q := List.mem_of_mem_tail (mem_of_head?_eq hts)
              have hsr : s ≠ r := fun hc => hrQ (hc ▸ hsQ)
              constructor
              · cases hQ : Q with
                | nil => exact absurd hQ hQne
                | cons a T =>
                    rw [hQ] at hts
                    simp only [List.tail_cons] at hts
                    have hTne : T ≠ [] := by
                      intro hT
                      rw [hT] at hts
                      exact Option.noConfusion hts
                    simp only [List.cons_append, List.tail_cons]
                    rw [head?_append_left T r hTne]
                    exact hts
              · dsimp only
                rw [upd_other _ _ _ _ hsr]
                exact hps
            · intro x b2 hx
              dsimp only at hx ⊢
              by_cases hxr : x = r
              · subst hxr
                rw [upd_same] at hx
                exact PC.noConfusion hx
              · rw [upd_other _ _ _ _ hxr] at hx
                exact hsw x b2 hx
          simpa using hgoal

theorem chainOk_congr {N : Nat} (c c2 : Config N) :
    ∀ Q : List (Fin N), (∀ a ∈ Q, c2.next a = c.next a) →
      (∀ b ∈ Q.tail, c2.lock b = c.lock b ∧ c2.pc b = c.pc b) →
      chainOk c Q → chainOk c2 Q
  | [], _, _, _ => trivial
  | [a], hn, _, hco => by
      show c2.next a = none
      rw [hn a (by simp)]
      exact hco
  | a :: b :: T, hn, hbp, hco => by
      refine ⟨?_, ?_⟩
      · have hb := hbp b (by simp)
        exact Adj_congr c c2 a b hb.1 hb.2 (hn a (by simp)) hco.1
      · exact chainOk_congr c c2 (b :: T) (fun x hx => hn x (by simp [hx]))
          (fun x hx => hbp x (by
            simp only [List.tail_cons] at hx ⊢
            exact List.mem_cons_of_mem b hx)) hco.2

/-- The effect of the `aLink` write on the chain: the linking rank `r` is a
non-head member, its predecessor is exactly the `p` recorded in its program
point, and after writing `p`'s `NEXT` and moving to `aSpin` the chain is
again well formed. -/
theorem chainOk_link {N : Nat} (c : Config N) (r p : Fin N)
    (hpcr : c.pc r = .aLink p) :
    ∀ Q : List (Fin N), Q.Nodup → chainOk c Q → r ∈ Q.tail →
      p ∈ Q ∧ p ≠ r ∧
      chainOk { c with next := upd c.next p (some r), pc := upd c.pc r .aSpin } Q
  | [], _, _, hr => absurd hr (by simp)
  | [a], _, _, hr => absurd hr (by simp)
  | a :: b :: T, hnd, hco, hr => by
      simp only [List.tail_cons] at hr
      have hanb : a ∉ b :: T := (List.nodup_cons.mp hnd).1
      by_cases hrb : r = b
      · subst hrb
        obtain ⟨hlb, hd⟩ := hco.1
        rcases hd with ⟨hd1, hd2⟩ | ⟨hd1, _⟩
        · rw [hpcr] at hd1
          have hap : a = p := by
            injection hd1 with h2
            exact h2.symm
          subst hap
          have hpnotin : a ∉ r :: T := hanb
          have hra : r ≠ a := fun hc2 => hpnotin (hc2 ▸ List.mem_cons_self _ _)
          refine ⟨by simp, fun hc2 => hra hc2.symm, ?_, ?_⟩
          · refine ⟨hlb, Or.inr ⟨?_, ?_⟩⟩
            · show upd c.pc r .aSpin r = .aSpin
              rw [upd_same]
            · show upd c.next a (some r) a = some r
              rw [upd_same]
          · refine chainOk_congr c _ (r :: T) ?_ ?_ hco.2
            · intro x hx
              show upd c.next a (some r) x = c.next x
              exact upd_other _ _ _ _ (fun hc2 : x = a => hpnotin (hc2 ▸ hx))
            · intro x hx
              simp only [List.tail_cons] at hx
              have hrT : r ∉ T := (List.nodup_cons.mp (List.nodup_cons.mp hnd).2).1
              refine ⟨rfl, ?_⟩
              show upd c.pc r .aSpin x = c.pc x
              exact upd_other _ _ _ _ (fun hc2 : x = r => hrT (hc2 ▸ hx))
        · rw [hpcr] at hd1
          exact PC.noConfusion hd1
      · have hrT : r ∈ T := by
          rcases List.mem_cons.mp hr with h1 | h1
          · exact absurd h1 hrb
          · exact h1
        obtain ⟨hpQ, hpr, hcoT⟩ := chainOk_link c r p hpcr (b :: T)
          (List.nodup_cons.mp hnd).2 hco.2 (by simpa using hrT)
        have hbr : b ≠ r := fun hc2 => hrb hc2.symm
        have hap : a ≠ p := fun hc2 => hanb (hc2 ▸ hpQ)
        refine ⟨List.mem_cons_of_mem a hpQ, hpr, ?_, hcoT⟩
        refine Adj_congr c _ a b rfl ?_ ?_ hco.1
        · show upd c.pc r .aSpin b = c.pc b
          exact upd_other _ _ _ _ hbr
        · show upd c.next p (some r) a = c.next a
          exact upd_other _ _ _ _ hap

theorem inv_step_aLink {N : Nat} (c : Config N) (r : Fin N) (choice : Bool)
    (p : Fin N) (h : Inv c) (hpcr : c.pc r = .aLink p) : Inv (step c r choice) := by
  rw [step, hpcr]
  obtain ⟨Q, hnd, htl, hmem, hhead, hco, hlk, hplk, hho, hsw⟩ := h
  have hrQ : r ∈ Q := (hmem r).mpr (by rw [hpcr]; trivial)
  have hrnothead : Q.head? ≠ some r := by
    intro hh
    have := hhead r hh
    rw [ownerish, hpcr] at this
    exact this
  have hrtail : r ∈ Q.tail := by
    cases hQ : Q with
    | nil => rw [hQ] at hrQ; exact absurd hrQ (by simp)
    | cons a T =>
        rw [hQ] at hrQ hrnothead
        rcases List.mem_cons.mp hrQ with h1 | h1
        · exact absurd (by simp [h1] : (a :: T).head? = some r) hrnothead
        · simpa using h1
  obtain ⟨hpQ, hpr, hco2⟩ := chainOk_link c r p hpcr Q hnd hco hrtail
  have hlr : c.lock r = false := by
    cases hl : c.lock r with
    | false => rfl
    | true =>
        rcases hlk r hl with hh | hh
        · exact absurd hh hrnothead
        · rw [hpcr] at hh; exact PC.noConfusion hh
  refine ⟨Q, hnd, htl, ?_, ?_, hco2, ?_, ?_, ?_, ?_⟩
  · intro x
    dsimp only
    by_cases hx : x = r
    · subst hx
      rw [upd_same]
      exact ⟨fun _ => trivial, fun _ => hrQ⟩
    · rw [upd_other _ _ _ _ hx]
      exact hmem x
  · intro h2 hh
    have hne : h2 ≠ r := fun hc2 => hrnothead (hc2 ▸ hh)
    exact ownerish_congr c _ h2 (by dsimp only; rw [upd_other _ _ _ _ hne]) rfl
      (hhead h2 hh)
  · intro x hx
    dsimp only at hx
    by_cases hxr : x = r
    · subst hxr
      rw [hlr] at hx
      exact absurd hx (by simp)
    · rcases hlk x hx with hh | hh
      · exact Or.inl hh
      · exact Or.inr (by dsimp only; rw [upd_other _ _ _ _ hxr]; exact hh)
  · intro x hx
    dsimp only at hx ⊢
    by_cases hxr : x = r
    · subst hxr
      rw [upd_same] at hx
      simp [pcLocked] at hx
    · rw [upd_other _ _ _ _ hxr] at hx
      exact hplk x hx
  · intro h2 s hh hpc2
    dsimp only at hpc2
    have hne : h2 ≠ r := fun hc2 => hrnothead (hc2 ▸ hh)
    rw [upd_other _ _ _ _ hne] at hpc2
    obtain ⟨hts, hps⟩ := hho h2 s hh hpc2
    have hsr : s ≠ r := by
      intro hc2
      rw [hc2, hpcr] at hps
      exact PC.noConfusion hps
    exact ⟨hts, by dsimp only; rw [upd_other _ _ _ _ hsr]; exact hps⟩
  · intro x b2 hx
    dsimp only at hx ⊢
    by_cases hxr : x = r
    · subst hxr
      rw [upd_same] at hx
      exact PC.noConfusion hx
    · rw [upd_other _ _ _ _ hxr] at hx
      have hxQ : x ∉ Q := fun hx2 => by
        have := (hmem x).mp hx2
        rw [hx] at this
        simp [inQueue] at this
      have hxp : x ≠ p := fun hc2 => hxQ (hc2 ▸ hpQ)
      rw [upd_other _ _ _ _ hxp]
      exact hsw x b2 hx

theorem head_not_mem_tail {N : Nat} (Q : List (Fin N)) (r : Fin N)
    (hnd : Q.Nodup) (hh : Q.head? = some r) : r ∉ Q.tail := by
  cases hQ : Q with
  | nil => simp
  | cons a T =>
      rw [hQ] at hh hnd
      simp only [List.head?_cons, Option.some_inj] at hh
      subst hh
      simpa using (List.nodup_cons.mp hnd).1

/-- Generic preservation: a step by the queue head `r` that only changes
its program point to another owner point preserves the invariant with the
same queue. -/
theorem inv_pcchange_head {N : Nat} (c : Config N) (r : Fin N) (p2 : PC N)
    (Q : List (Fin N)) (hnd : Q.Nodup) (htl : c.tail = Q.getLast?)
    (hmem : ∀ x : Fin N, x ∈ Q ↔ inQueue (c.pc x))
    (hhead : ∀ h : Fin N, Q.head? = some h → ownerish c h)
    (hco : chainOk c Q)
    (hlk : ∀ x : Fin N, c.lock x = true → Q.head? = some x ∨ c.pc x = .rClear)
    (hplk : ∀ x : Fin N, pcLocked (c.pc x) → c.lock x = true)
    (hho : ∀ h s : Fin N, Q.head? = some h → c.pc h = .rHandoff s →
      Q.tail.head? = some s ∧ c.pc s = .aSpin)
    (hsw : ∀ x : Fin N, ∀ b : Bool, c.pc x = .aSwap b → c.next x = none)
    (hh : Q.head? = some r) (hlkr : c.lock r = true)
    (hp2q : inQueue p2) (hp2o : ownerishAux p2 (c.lock r))
    (hp2h : ∀ s, p2 = .rHandoff s → Q.tail.head? = some s ∧ c.pc s = .aSpin ∧ s ≠ r)
    (hp2s : ∀ b : Bool, p2 ≠ .aSwap b) :
    Inv { c with pc := upd c.pc r p2 } := by
  have hrQ : r ∈ Q := mem_of_head?_eq hh
  have hrtl : r ∉ Q.tail := head_not_mem_tail Q r hnd hh
  refine ⟨Q, hnd, htl, ?_, ?_, ?_, ?_, ?_, ?_, ?_⟩
  · intro x
    dsimp only
    by_cases hx : x = r
    · subst hx
      rw [upd_same]
      exact ⟨fun _ => hp2q, fun _ => hrQ⟩
    · rw [upd_other _ _ _ _ hx]
      exact hmem x
  · intro h2 hh2
    rw [hh] at hh2
    have hh3 : h2 = r := (Option.some_inj.mp hh2).symm
    subst hh3
    rw [ownerish]
    dsimp only
    rw [upd_same]
    exact hp2o
  · refine chainOk_congr c _ Q (fun a _ => rfl) ?_ hco
    intro x hx
    have hxr : x ≠ r := fun hc2 => hrtl (hc2 ▸ hx)
    exact ⟨rfl, by dsimp only; rw [upd_other _ _ _ _ hxr]⟩
  · intro x hx
    dsimp only at hx
    by_cases hxr : x = r
    · subst hxr
      exact Or.inl hh
    · rcases hlk x hx with hh2 | hh2
      · exact Or.inl hh2
      · exact Or.inr (by dsimp only; rw [upd_other _ _ _ _ hxr]; exact hh2)
  · intro x hx
    dsimp only at hx ⊢
    by_cases hxr : x = r
    · subst hxr
      exact hlkr
    · rw [upd_other _ _ _ _ hxr] at hx
      exact hplk x hx
  · intro h2 s hh2 hpc2
    rw [hh] at hh2
    have hh3 : h2 = r := (Option.some_inj.mp hh2).symm
    subst hh3
    dsimp only at hpc2
    rw [upd_same] at hpc2
    obtain ⟨hts, hps, hsr⟩ := hp2h s hpc2
    exact ⟨hts, by dsimp only; rw [upd_other _ _ _ _ hsr]; exact hps⟩
  · intro x b2 hx
    dsimp only at hx ⊢
    by_cases hxr : x = r
    · subst hxr
      rw [upd_same] at hx
      exact absurd hx (hp2s b2)
    · rw [upd_other _ _ _ _ hxr] at hx
      exact hsw x b2 hx

theorem inv_step_aSpin {N : Nat} (c : Config N) (r : Fin N) (choice : Bool)
    (h : Inv c) (hpcr : c.pc r = .aSpin) : Inv (step c r choice) := by
  rw [step, hpcr]
  dsimp only
  by_cases hl : c.lock r = true
  · rw [if_pos hl]
    obtain ⟨Q, hnd, htl, hmem, hhead, hco, hlk, hplk, hho, hsw⟩ := h
    have hh : Q.head? = some r := by
      rcases hlk r hl with hh | hh
      · exact hh
      · rw [hpcr] at hh; exact PC.noConfusion hh
    refine inv_pcchange_head c r (.aDone true) Q hnd htl hmem hhead hco hlk hplk
      hho hsw hh hl rfl rfl (fun s hs => PC.noConfusion hs) (fun b hb => PC.noConfusion hb)
  · rw [if_neg hl]
    exact h

theorem inv_step_aDone {N : Nat} (c : Config N) (r : Fin N) (choice : Bool)
    (v : Bool) (h : Inv c) (hpcr : c.pc r = .aDone v) : Inv (step c r choice) := by
  rw [step, hpcr]
  dsimp only
  obtain ⟨Q, hnd, htl, hmem, hhead, hco, hlk, hplk, hho, hsw⟩ := h
  cases v with
  | false =>
      rw [if_neg (by decide : ¬ false = true)]
      have hrQ : r ∉ Q := fun hr => by
        have h2 := (hmem r).mp hr
        rw [hpcr] at h2
        simp [inQueue] at h2
      have hlr : c.lock r = false := by
        cases hl : c.lock r with
        | false => rfl
        | true =>
            rcases hlk r hl with hh | hh
            · exact absurd (mem_of_head?_eq hh) hrQ
            · rw [hpcr] at hh; exact PC.noConfusion hh
      refine ⟨Q, hnd, htl, ?_, ?_, ?_, ?_, ?_, ?_, ?_⟩
      · intro x
        dsimp only
        by_cases hx : x = r
        · subst hx
          rw [upd_same]
          exact ⟨fun hx2 => absurd hx2 hrQ, fun hx2 => by simp [inQueue] at hx2⟩
        · rw [upd_other _ _ _ _ hx]
          exact hmem x
      · intro h2 hh
        have hne : h2 ≠ r := fun hc2 => hrQ (hc2 ▸ mem_of_head?_eq hh)
        exact ownerish_congr c _ h2 (by dsimp only; rw [upd_other _ _ _ _ hne])
          (by dsimp only; rw [upd_other _ _ _ _ hne]) (hhead h2 hh)
      · refine chainOk_congr c _ Q (fun a _ => rfl) ?_ hco
        intro x hx
        have hxr : x ≠ r := fun hc2 => hrQ (hc2 ▸ List.mem_of_mem_tail hx)
        exact ⟨by dsimp only; rw [upd_other _ _ _ _ hxr],
          by dsimp only; rw [upd_other _ _ _ _ hxr]⟩
      · intro x hx
        dsimp only at hx
        by_cases hxr : x = r
        · subst hxr
          rw [upd_same] at hx
          exact absurd hx (by simp)
        · rw [upd_other _ _ _ _ hxr] at hx
          rcases hlk x hx with hh | hh
          · exact Or.inl hh
          · exact Or.inr (by dsimp only; rw [upd_other _ _ _ _ hxr]; exact hh)
      · intro x hx
        dsimp only at hx ⊢
        by_cases hxr : x = r
        · subst hxr
          rw [upd_same] at hx
          simp [pcLocked] at hx
        · rw [upd_other _ _ _ _ hxr] at hx
          rw [upd_other _ _ _ _ hxr]
          exact hplk x hx
      · intro h2 s hh hpc2
        dsimp only at hpc2
        have hne : h2 ≠ r := fun hc2 => hrQ (hc2 ▸ mem_of_head?_eq hh)
        rw [upd_other _ _ _ _ hne] at hpc2
        obtain ⟨hts, hps⟩ := hho h2 s hh hpc2
        have hsQ : s ∈ Q := List.mem_of_mem_tail (mem_of_head?_eq hts)
        have hsr : s ≠ r := fun hc2 => hrQ (hc2 ▸ hsQ)
        exact ⟨hts, by dsimp only; rw [upd_other _ _ _ _ hsr]; exact hps⟩
      · intro x b2 hx
        dsimp only at hx ⊢
        by_cases hxr : x = r
        · subst hxr
          rw [upd_same] at hx
          exact PC.noConfusion hx
        · rw [upd_other _ _ _ _ hxr] at hx
          exact hsw x b2 hx
  | true =>
      rw [if_pos rfl]
      have hrQ : r ∈ Q := (hmem r).mpr (by rw [hpcr]; exact rfl)
      have hhr : Q.head? = some r :=
        mem_head_of_not_waiting c Q hco r hrQ
          ⟨fun a ha => by rw [hpcr] at ha; exact PC.noConfusion ha,
            by rw [hpcr]; exact fun ha => PC.noConfusion ha⟩
      have hrtl : r ∉ Q.tail := head_not_mem_tail Q r hnd hhr
      refine ⟨Q, hnd, htl, ?_, ?_, ?_, ?_, ?_, ?_, ?_⟩
      · intro x
        dsimp only
        by_cases hx : x = r
        · subst hx
          rw [upd_same]
          exact ⟨fun _ => trivial, fun _ => hrQ⟩
        · rw [upd_other _ _ _ _ hx]
          exact hmem x
      · intro h2 hh2
        rw [hhr] at hh2
        have hh3 : h2 = r := (Option.some_inj.mp hh2).symm
        subst hh3
        rw [ownerish]
        dsimp only
        rw [upd_same]
        exact trivial
      · refine chainOk_congr c _ Q (fun a _ => rfl) ?_ hco
        intro x hx
        have hxr : x ≠ r := fun hc2 => hrtl (hc2 ▸ hx)
        exact ⟨by dsimp only; rw [upd_other _ _ _ _ hxr],
          by dsimp only; rw [upd_other _ _ _ _ hxr]⟩
      · intro x hx
        dsimp only at hx
        by_cases hxr : x = r
        · subst hxr
          exact Or.inl hhr
        · rw [upd_other _ _ _ _ hxr] at hx
          rcases hlk x hx with hh | hh
          · exact Or.inl hh
          · exact Or.inr (by dsimp only; rw [upd_other _ _ _ _ hxr]; exact hh)
      · intro x hx
        dsimp only at hx ⊢
        by_cases hxr : x = r
        · subst hxr
          rw [upd_same]
        · rw [upd_other _ _ _ _ hxr] at hx
          rw [upd_other _ _ _ _ hxr]
          exact hplk x hx
      · intro h2 s hh2 hpc2
        rw [hhr] at hh2
        have hh3 : h2 = r := (Option.some_inj.mp hh2).symm
        subst hh3
        dsimp only at hpc2
        rw [upd_same] at hpc2
        exact PC.noConfusion hpc2
      · intro x b2 hx
        dsimp only at hx ⊢
        by_cases hxr : x = r
        · subst hxr
          rw [upd_same] at hx
          exact PC.noConfusion hx
        · rw [upd_other _ _ _ _ hxr] at hx
          exact hsw x b2 hx

theorem inv_step_holding {N : Nat} (c : Config N) (r : Fin N) (choice : Bool)
    (h : Inv c) (hpcr : c.pc r = .holding) : Inv (step c r choice) := by
  rw [step, hpcr]
  dsimp only
  by_cases hl : c.lock r = true
  · rw [if_pos hl]
    obtain ⟨Q, hnd, htl, hmem, hhead, hco, hlk, hplk, hho, hsw⟩ := h
    have hh : Q.head? = some r := by
      rcases hlk r hl with hh | hh
      · exact hh
      · rw [hpcr] at hh; exact PC.noConfusion hh
    exact inv_pcchange_head c r .rCAS Q hnd htl hmem hhead hco hlk hplk
      hho hsw hh hl True.intro True.intro (fun s hs => PC.noConfusion hs)
      (fun b hb => PC.noConfusion hb)
  · rw [if_neg hl]
    exact h

theorem inv_step_rCAS {N : Nat} (c : Config N) (r : Fin N) (choice : Bool)
    (h : Inv c) (hpcr : c.pc r = .rCAS) : Inv (step c r choice) := by
  rw [step, hpcr]
  dsimp only
  obtain ⟨Q, hnd, htl, hmem, hhead, hco, hlk, hplk, hho, hsw⟩ := h
  have hlkr : c.lock r = true := hplk r (by rw [hpcr]; exact True.intro)
  have hh : Q.head? = some r := by
    rcases hlk r hlkr with hh | hh
    · exact hh
    · rw [hpcr] at hh; exact PC.noConfusion hh
  by_cases ht : c.tail = some r
  · rw [if_pos ht]
    have hQr : Q = [r] :=
      head_eq_last_singleton Q r hnd hh (by rw [← htl]; exact ht)
    subst hQr
    refine ⟨[], by simp, rfl, ?_, by simp, trivial, ?_, ?_, by simp, ?_⟩
    · intro x
      dsimp only
      simp only [List.not_mem_nil, false_iff]
      by_cases hx : x = r
      · subst hx
        rw [upd_same]
        exact fun h2 => h2
      · rw [upd_other _ _ _ _ hx]
        intro h2
        exact hx (by simpa using (hmem x).mpr h2)
    · intro x hx
      dsimp only
      by_cases hxr : x = r
      · subst hxr
        rw [upd_same]
        exact Or.inr rfl
      · rw [upd_other _ _ _ _ hxr]
        rcases hlk x hx with hh2 | hh2
        · exact absurd (by simpa using hh2 : r = x).symm hxr
        · exact Or.inr hh2
    · intro x hx
      dsimp only at hx
      by_cases hxr : x = r
      · subst hxr
        exact hlkr
      · rw [upd_other _ _ _ _ hxr] at hx
        exact hplk x hx
    · intro x b2 hx
      dsimp only at hx
      by_cases hxr : x = r
      · subst hxr
        rw [upd_same] at hx
        exact PC.noConfusion hx
      · rw [upd_other _ _ _ _ hxr] at hx
        exact hsw x b2 hx
  · rw [if_neg ht]
    exact inv_pcchange_head c r .rSpin Q hnd htl hmem hhead hco hlk hplk
      hho hsw hh hlkr True.intro True.intro (fun s hs => PC.noConfusion hs)
      (fun b hb => PC.noConfusion hb)

theorem inv_step_rSpin {N : Nat} (c : Config N) (r : Fin N) (choice : Bool)
    (h : Inv c) (hpcr : c.pc r = .rSpin) : Inv (step c r choice) := by
  rw [step, hpcr]
  dsimp only
  cases hnx : c.next r with
  | none => exact h
  | some s =>
      obtain ⟨Q, hnd, htl, hmem, hhead, hco, hlk, hplk, hho, hsw⟩ := h
      have hlkr : c.lock r = true := hplk r (by rw [hpcr]; exact True.intro)
      have hh : Q.head? = some r := by
        rcases hlk r hlkr with hh | hh
        · exact hh
        · rw [hpcr] at hh; exact PC.noConfusion hh
      cases hQ : Q with
      | nil => rw [hQ] at hh; exact Option.noConfusion hh
      | cons a T =>
          rw [hQ] at hnd htl hmem hhead hco hlk hho hh
          simp only [List.head?_cons, Option.some_inj] at hh
          subst a
          obtain ⟨T2, hT2, hps, hls⟩ := next_of_head c r s T hco hnx
          subst hT2
          have hsr : s ≠ r := by
            intro hsr2
            exact (List.nodup_cons.mp hnd).1 (by rw [← hsr2]; exact List.mem_cons_self _ _)
          refine inv_pcchange_head c r (.rHandoff s) (r :: s :: T2) hnd htl hmem
            hhead hco hlk hplk hho hsw rfl hlkr True.intro True.intro ?_
            (fun b hb => PC.noConfusion hb)
          intro s2 hs2
          have hs3 : s = s2 := by injection hs2
          subst hs3
          exact ⟨rfl, hps, hsr⟩

theorem inv_step_rHandoff {N : Nat} (c : Config N) (r : Fin N) (choice : Bool)
    (s : Fin N) (h : Inv c) (hpcr : c.pc r = .rHandoff s) : Inv (step c r choice) := by
  rw [step, hpcr]
  dsimp only
  obtain ⟨Q, hnd, htl, hmem, hhead, hco, hlk, hplk, hho, hsw⟩ := h
  have hlkr : c.lock r = true := hplk r (by rw [hpcr]; exact True.intro)
  have hh : Q.head? = some r := by
    rcases hlk r hlkr with hh | hh
    · exact hh
    · rw [hpcr] at hh; exact PC.noConfusion hh
  obtain ⟨hts, hps⟩ := hho r s hh hpcr
  cases hQ : Q with
  | nil => rw [hQ] at hh; exact Option.noConfusion hh
  | cons a T =>
      rw [hQ] at hnd htl hmem hhead hco hlk hho hh hts
      simp only [List.head?_cons, Option.some_inj] at hh
      subst a
      simp only [List.tail_cons] at hts
      cases hT : T with
      | nil => rw [hT] at hts; exact Option.noConfusion hts
      | cons b T2 =>
          rw [hT] at hnd htl hmem hhead hco hlk hho hts
          simp only [List.head?_cons, Option.some_inj] at hts
          subst b
          have hrst : r ∉ s :: T2 := (List.nodup_cons.mp hnd).1
          have hnd2 : (s :: T2).Nodup := (List.nodup_cons.mp hnd).2
          have hsr : s ≠ r := by
            intro hc2
            rw [hc2] at hrst
            exact hrst (List.mem_cons_self _ _)
          have hrs : r ≠ s := fun hc2 => hsr hc2.symm
          have hsT2 : s ∉ T2 := (List.nodup_cons.mp hnd2).1
          have hrT2 : r ∉ T2 := fun hc2 => hrst (List.mem_cons_of_mem s hc2)
          refine ⟨s :: T2, hnd2, ?_, ?_, ?_, ?_, ?_, ?_, ?_, ?_⟩
          · dsimp only
            rw [htl, List.getLast?_cons_cons]
          · intro x
            dsimp only
            by_cases hx : x = r
            · subst hx
              rw [upd_same]
              exact ⟨fun hx2 => absurd hx2 hrst, fun hx2 => False.elim hx2⟩
            · rw [upd_other _ _ _ _ hx]
              constructor
              · intro hx2
                exact (hmem x).mp (List.mem_cons_of_mem r hx2)
              · intro hx2
                rcases List.mem_cons.mp ((hmem x).mpr hx2) with h2 | h2
                · exact absurd h2 hx
                · exact h2
          · intro h2 hh2
            simp only [List.head?_cons, Option.some_inj] at hh2
            subst hh2
            rw [ownerish]
            dsimp only
            rw [upd_same, upd_other _ _ _ _ hsr, hps]
            exact rfl
          · refine chainOk_congr c _ (s :: T2) (fun a2 _ => rfl) ?_ hco.2
            intro x hx
            simp only [List.tail_cons] at hx
            have hxs : x ≠ s := fun hc2 => hsT2 (hc2 ▸ hx)
            have hxr : x ≠ r := fun hc2 => hrT2 (hc2 ▸ hx)
            exact ⟨by dsimp only; rw [upd_other _ _ _ _ hxs],
              by dsimp only; rw [upd_other _ _ _ _ hxr]⟩
          · intro x hx
            dsimp only at hx
            by_cases hxs : x = s
            · subst hxs
              exact Or.inl rfl
            · rw [upd_other _ _ _ _ hxs] at hx
              rcases hlk x hx with hh2 | hh2
              · simp only [List.head?_cons, Option.some_inj] at hh2
                subst hh2
                exact Or.inr (by dsimp only; rw [upd_same])
              · have hxr : x ≠ r := by
                  intro hc2
                  rw [hc2, hpcr] at hh2
                  exact PC.noConfusion hh2
                exact Or.inr (by dsimp only; rw [upd_other _ _ _ _ hxr]; exact hh2)
          · intro x hx
            dsimp only at hx ⊢
            by_cases hxr : x = r
            · subst hxr
              rw [upd_other _ _ _ _ hrs]
              exact hlkr
            · rw [upd_other _ _ _ _ hxr] at hx
              by_cases hxs : x = s
              · subst hxs
                rw [upd_same]
              · rw [upd_other _ _ _ _ hxs]
                exact hplk x hx
          · intro h2 s2 hh2 hpc2
            simp only [List.head?_cons, Option.some_inj] at hh2
            subst hh2
            dsimp only at hpc2
            rw [upd_other _ _ _ _ hsr, hps] at hpc2
            exact PC.noConfusion hpc2
          · intro x b2 hx
            dsimp only at hx ⊢
            by_cases hxr : x = r
            · subst hxr
              rw [upd_same] at hx
              exact PC.noConfusion hx
            · rw [upd_other _ _ _ _ hxr] at hx
              exact hsw x b2 hx

theorem inv_step_rClear {N : Nat} (c : Config N) (r : Fin N) (choice : Bool)
    (h : Inv c) (hpcr : c.pc r = .rClear) : Inv (step c r choice) := by
  rw [step, hpcr]
  dsimp only
  obtain ⟨Q, hnd, htl, hmem, hhead, hco, hlk, hplk, hho, hsw⟩ := h
  have hrQ : r ∉ Q := fun hr => by
    have h2 := (hmem r).mp hr
    rw [hpcr] at h2
    simp [inQueue] at h2
  refine ⟨Q, hnd, htl, ?_, ?_, ?_, ?_, ?_, ?_, ?_⟩
  · intro x
    dsimp only
    by_cases hx : x = r
    · subst hx
      rw [upd_same]
      exact ⟨fun hx2 => absurd hx2 hrQ, fun hx2 => False.elim hx2⟩
    · rw [upd_other _ _ _ _ hx]
      exact hmem x
  · intro h2 hh
    have hne : h2 ≠ r := fun hc2 => hrQ (hc2 ▸ mem_of_head?_eq hh)
    exact ownerish_congr c _ h2 (by dsimp only; rw [upd_other _ _ _ _ hne])
      (by dsimp only; rw [upd_other _ _ _ _ hne]) (hhead h2 hh)
  · refine chainOk_congr c _ Q (fun a _ => rfl) ?_ hco
    intro x hx
    have hxr : x ≠ r := fun hc2 => hrQ (hc2 ▸ List.mem_of_mem_tail hx)
    exact ⟨by dsimp only; rw [upd_other _ _ _ _ hxr],
      by dsimp only; rw [upd_other _ _ _ _ hxr]⟩
  · intro x hx
    dsimp only at hx
    by_cases hxr : x = r
    · subst hxr
      rw [upd_same] at hx
      exact absurd hx (by simp)
    · rw [upd_other _ _ _ _ hxr] at hx
      rcases hlk x hx with hh | hh
      · exact Or.inl hh
      · exact Or.inr (by dsimp only; rw [upd_other _ _ _ _ hxr]; exact hh)
  · intro x hx
    dsimp only at hx ⊢
    by_cases hxr : x = r
    · subst hxr
      rw [upd_same] at hx
      simp [pcLocked] at hx
    · rw [upd_other _ _ _ _ hxr] at hx
      rw [upd_other _ _ _ _ hxr]
      exact hplk x hx
  · intro h2 s hh hpc2
    dsimp only at hpc2
    have hne : h2 ≠ r := fun hc2 => hrQ (hc2 ▸ mem_of_head?_eq hh)
    rw [upd_other _ _ _ _ hne] at hpc2
    obtain ⟨hts, hps⟩ := hho h2 s hh hpc2
    have hsQ : s ∈ Q := List.mem_of_mem_tail (mem_of_head?_eq hts)
    have hsr : s ≠ r := fun hc2 => hrQ (hc2 ▸ hsQ)
    exact ⟨hts, by dsimp only; rw [upd_other _ _ _ _ hsr]; exact hps⟩
  · intro x b2 hx
    dsimp only at hx ⊢
    by_cases hxr : x = r
    · subst hxr
      rw [upd_same] at hx
      exact PC.noConfusion hx
    · rw [upd_other _ _ _ _ hxr] at hx
      exact hsw x b2 hx

theorem inv_step {N : Nat} (c : Config N) (r : Fin N) (choice : Bool)
    (h : Inv c) : Inv (step c r choice) := by
  cases hpc : c.pc r with
  | idle => exact inv_step_idle c r choice h hpc
  | aSetNext b => exact inv_step_aSetNext c r choice b h hpc
  | aSwap b => exact inv_step_aSwap c r choice b h hpc
  | aLink p => exact inv_step_aLink c r choice p h hpc
  | aSpin => exact inv_step_aSpin c r choice h hpc
  | aDone v => exact inv_step_aDone c r choice v h hpc
  | holding => exact inv_step_holding c r choice h hpc
  | rCAS => exact inv_step_rCAS c r choice h hpc
  | rSpin => exact inv_step_rSpin c r choice h hpc
  | rHandoff s => exact inv_step_rHandoff c r choice s h hpc
  | rClear => exact inv_step_rClear c r choice h hpc

theorem inv_runFrom {N : Nat} :
    ∀ (sched : List (Fin N × Bool)) (c : Config N), Inv c → Inv (runFrom c sched)
  | [], _, h => h
  | e :: sched, c, h => inv_runFrom sched (step c e.1 e.2) (inv_step c e.1 e.2 h)

theorem inv_run (N : Nat) (sched : List (Fin N × Bool)) : Inv (run N sched) :=
  inv_runFrom sched (initConfig N) (inv_init N)

/-- C1 (amended): in every reachable state of the concurrent mutex
protocol, the ranks whose `LOCK` slot is 1 and whose program point is not
`release`'s final own-`LOCK`-clearing write all coincide: at most one such
rank exists.  (As literally stated the claim is refuted by
`mutex_lock_mutual_exclusion_counterexample`: a releaser that has already
set its successor's `LOCK` slot but not yet cleared its own leaves two
slots at 1 simultaneously.) -/
theorem mutex_lock_mutual_exclusion {N : Nat} (sched : List (Fin N × Bool))
    (r1 r2 : Fin N)
    (h1 : (run N sched).lock r1 = true) (h2 : (run N sched).lock r2 = true)
    (hc1 : (run N sched).pc r1 ≠ .rClear) (hc2 : (run N sched).pc r2 ≠ .rClear) :
    r1 = r2 := by
  obtain ⟨Q, hnd, htl, hmem, hhead, hco, hlk, hplk, hho, hsw⟩ := inv_run N sched
  have e1 : Q.head? = some r1 := by
    rcases hlk r1 h1 with hh | hh
    · exact hh
    · exact absurd hh hc1
  have e2 : Q.head? = some r2 := by
    rcases hlk r2 h2 with hh | hh
    · exact hh
    · exact absurd hh hc2
  rw [e1] at e2
  exact Option.some_inj.mp e2

theorem mutex_lock_mutual_exclusion_witness :
    (run 1 [(0, true), (0, true), (0, true), (0, true)]).lock 0 = true ∧
    (run 1 [(0, true), (0, true), (0, true), (0, true)]).pc 0 ≠ PC.rClear ∧
    (0 : Fin 1) = 0 :=
  ⟨by decide, by decide,
    mutex_lock_mutual_exclusion [(0, true), (0, true), (0, true), (0, true)]
      0 0 (by decide) (by decide) (by decide) (by decide)⟩

/-- Witness for C3 (amended) at concrete freed states of each primitive. -/
theorem already_freed_after_free_witness :
    Counter.next ⟨false, 0, 0, 1⟩ none = .error .alreadyFreed ∧
    Mutex.acquire (⟨false, fun _ => false, fun _ => none, none⟩ : MutexG 2) 0 true =
      .error .alreadyFreed ∧
    Mutex.release (⟨false, fun _ => false, fun _ => none, none⟩ : MutexG 2) 0 =
      .error .alreadyFreed ∧
    Mutex.locked (⟨false, fun _ => false, fun _ => none, none⟩ : MutexG 2) 0 =
      .error .alreadyFreed ∧
    (RMutex.acquire ⟨false, false, 0⟩ true true).2 = .error .alreadyFreed ∧
    (RMutex.release ⟨false, false, 0⟩).2 = .error .alreadyFreed ∧
    RMutex.locked ⟨false, false, 0⟩ = .error .alreadyFreed ∧
    (Condition.acquire condFreedCex true true).2 = .error .alreadyFreed ∧
    (Condition.release condFreedCex).2 = .error .alreadyFreed ∧
    (Condition.wait condFreedCex 0).2 = .error .alreadyFreed ∧
    (Condition.notify condFreedCex 1).2 = .error .alreadyFreed ∧
    RMutex.count ⟨false, false, 0⟩ = (0 : Int) ∧
    Condition.locked condFreedCex = CLock.locked condFreedCex.lock ∧
    Condition.waitFor (fun v : Int => decide (v ≠ 0)) (fun _ => 2) 3 0 7 condFreedCex =
      (condFreedCex, .ok (some (2, 0))) :=
  already_freed_after_free ⟨false, 0, 0, 1⟩ rfl none 2
    ⟨false, fun _ => false, fun _ => none, none⟩ rfl 0 true
    ⟨false, false, 0⟩ rfl true condFreedCex rfl 0 1
    (fun v : Int => decide (v ≠ 0)) (fun _ => 2) 7 (by decide)

end MpiSync
